import Mathlib

/-!
# Verification of the captcha rendering pipeline

A shallow embedding of `src/image.go` (package `captcha`): geometric layout
calculation (`calculateSizes`), primitive rasterization (`drawHorizLine`,
`drawCircle`), background noise (`fillWithCircles`), the strike-through line
(`strikeThrough`), digit rendering (`drawNumber`) and the image assembler
(`NewImage`).

Modelling conventions:
* Go `int` is embedded as `ℤ`; Go integer division truncates toward zero, so it
  is embedded as `Int.tdiv`.
* Go `float64` arithmetic in `calculateSizes` and `drawNumber` is embedded as
  exact arithmetic over `ℚ`; the Go conversion `int(f)` (truncation toward
  zero) is embedded as `gtrunc`.
* Go `uint8` color channels are embedded as `ℕ` with an explicit `% 256`
  wherever the source converts back to `uint8`.
* The process-wide random source is embedded as a stream `rng : ℕ → ℕ`
  together with a position; `rand.Intn n` reads one stream value, reduces it
  modulo `n`, and advances the position.  `rand.Intn` panics for `n ≤ 0`, so a
  draw is `Option`-valued and a panic is `none`; every function downstream of a
  draw is `Option`-valued as well.
* `image.NRGBA.Set` silently ignores out-of-bounds writes, embedded in
  `Canvas.set`.
-/

/-- An NRGBA color: four `uint8` channels, embedded as `ℕ`. -/
structure Color where
  r : ℕ
  g : ℕ
  b : ℕ
  a : ℕ
deriving DecidableEq

/-- `min3` from image.go: smallest of three channel values. -/
def min3 (x y z : ℕ) : ℕ :=
  let o := x
  let o := if y < o then y else o
  if z < o then z else o

/-- `max3` from image.go: largest of three channel values. -/
def max3 (x y z : ℕ) : ℕ :=
  let o := x
  let o := if y > o then y else o
  if z > o then z else o

/-- The pixel buffer of an `image.NRGBA` with bounds `(0,0)-(width,height)`. -/
structure Canvas where
  width : ℤ
  height : ℤ
  pix : ℤ → ℤ → Color

/-- `img.Set x y color`: out-of-bounds writes are silently dropped, exactly as
`image.NRGBA.Set` drops points outside the bounds rectangle. -/
def Canvas.set (cv : Canvas) (x y : ℤ) (c : Color) : Canvas :=
  if 0 ≤ x ∧ x < cv.width ∧ 0 ≤ y ∧ y < cv.height then
    { cv with pix := fun x0 y0 => if x0 = x ∧ y0 = y then c else cv.pix x0 y0 }
  else cv

/-- The body of the `for x := fromX; x <= toX; x++` loop of `drawHorizLine`,
as structural recursion on the number of remaining pixels. -/
def hlineGo (c : Color) (x y : ℤ) (n : ℕ) (cv : Canvas) : Canvas :=
  match n with
  | 0 => cv
  | m + 1 => hlineGo c (x + 1) y m (cv.set x y c)

/-- `drawHorizLine color fromX toX y`: sets every pixel of `[fromX, toX]` at
row `y`; the Go loop runs `max 0 (toX + 1 - fromX)` times. -/
def drawHorizLine (c : Color) (fromX toX y : ℤ) (cv : Canvas) : Canvas :=
  hlineGo c fromX y (toX + 1 - fromX).toNat cv

/-- The `for xx < yy` midpoint loop of `drawCircle` (image.go lines 127-140).
Loop state is `(f, dfx, dfy, xx, yy)`; each pass increments `xx` and possibly
decrements `yy`, so `yy - xx` strictly decreases. -/
def circleLoop (c : Color) (x y : ℤ) (f dfx dfy xx yy : ℤ) (cv : Canvas) : Canvas :=
  if xx < yy then
    let yy' := if f ≥ 0 then yy - 1 else yy
    let dfy' := if f ≥ 0 then dfy + 2 else dfy
    let f1 := if f ≥ 0 then f + dfy' else f
    let xx' := xx + 1
    let dfx' := dfx + 2
    let f2 := f1 + dfx'
    let cv1 := drawHorizLine c (x - xx') (x + xx') (y + yy') cv
    let cv2 := drawHorizLine c (x - xx') (x + xx') (y - yy') cv1
    let cv3 := drawHorizLine c (x - yy') (x + yy') (y + xx') cv2
    let cv4 := drawHorizLine c (x - yy') (x + yy') (y - xx') cv3
    circleLoop c x y f2 dfx' dfy' xx' yy' cv4
  else cv
termination_by (yy - xx).toNat
decreasing_by
  split <;> omega

/-- `drawCircle color x y radius`: filled midpoint circle (image.go lines
116-141): two polar pixels, the central chord, then the symmetric span loop. -/
def drawCircle (c : Color) (x y radius : ℤ) (cv : Canvas) : Canvas :=
  let f := 1 - radius
  let dfx : ℤ := 1
  let dfy := -2 * radius
  let xx : ℤ := 0
  let yy := radius
  let cv1 := cv.set x (y + radius) c
  let cv2 := cv1.set x (y - radius) c
  let cv3 := drawHorizLine c (x - radius) (x + radius) y cv2
  circleLoop c x y f dfx dfy xx yy cv3

/-- Go's `int(f)` conversion from `float64`: truncation toward zero. -/
def gtrunc (q : ℚ) : ℤ :=
  if q < 0 then -(Int.floor (-q)) else Int.floor q

/-- The three sizes computed by `calculateSizes` and stored in the
`CaptchaImage` struct. -/
structure Layout where
  numWidth : ℤ
  numHeight : ℤ
  dotSize : ℤ
deriving DecidableEq

/-- `calculateSizes` (image.go lines 76-108), parameterized by the font grid
dimensions `fontWidth`/`fontHeight` (their defining source file is not part of
`src/`).  The Go float64 arithmetic is carried out in `ℚ` and `int(...)`
conversions become `gtrunc`. -/
def calculateSizes (fontWidth fontHeight : ℕ) (width height ncount : ℤ) : Layout :=
  let border : ℤ := if width > height then Int.tdiv height 5 else Int.tdiv width 5
  let w : ℚ := ((width - border * 2 : ℤ) : ℚ)
  let h : ℚ := ((height - border * 2 : ℤ) : ℚ)
  let fw : ℚ := (fontWidth : ℚ) + 1
  let fh : ℚ := (fontHeight : ℚ)
  let nc : ℚ := ((ncount : ℤ) : ℚ)
  let nw : ℚ := w / nc
  let nh : ℚ := nw * fh / fw
  let nw2 : ℚ := if nh > h then fw / fh * h else nw
  let nh2 : ℚ := if nh > h then h else nh
  let dotSize := gtrunc (nh2 / fh)
  { numWidth := gtrunc nw2
    numHeight := gtrunc nh2 - dotSize
    dotSize := dotSize }

/-- The layout algorithm exactly as the specification words it: border from
`min(width,height)/5`, width-first candidate, height-constrained fallback,
then floors.  Used only to compare with `calculateSizes`. -/
def computeLayoutSpec (fontWidth fontHeight : ℕ) (width height digitCount : ℤ) : Layout :=
  let border : ℤ := Int.tdiv (min width height) 5
  let usableW : ℚ := ((width - 2 * border : ℤ) : ℚ)
  let usableH : ℚ := ((height - 2 * border : ℤ) : ℚ)
  let nw : ℚ := usableW / ((digitCount : ℤ) : ℚ)
  let nh : ℚ := nw * (fontHeight : ℚ) / ((fontWidth : ℚ) + 1)
  let nhF : ℚ := if nh > usableH then usableH else nh
  let nwF : ℚ := if nh > usableH then ((fontWidth : ℚ) + 1) / (fontHeight : ℚ) * nhF else nw
  { numWidth := Int.floor nwF
    numHeight := Int.floor nhF - Int.floor (nhF / (fontHeight : ℚ))
    dotSize := Int.floor (nhF / (fontHeight : ℚ)) }

/-- A computation that reads the process-wide random stream: given the stream
and the current read position, it either panics (`none`) or returns a value
and the new position. -/
def MRand (β : Type) : Type :=
  (ℕ → ℕ) → ℕ → Option (β × ℕ)

/-- Return without consuming randomness. -/
def mret {β : Type} (b : β) : MRand β :=
  fun _ p => some (b, p)

/-- Sequencing: a panic in the first step aborts the whole computation. -/
def mbind {β γ : Type} (m : MRand β) (f : β → MRand γ) : MRand γ :=
  fun rng p =>
    match m rng p with
    | none => none
    | some (b, p1) => f b rng p1

/-- `rand.Intn n`: one uniform draw in `[0, n)`; panics (`none`) for `n ≤ 0`.
The draw is the next stream value reduced modulo `n`. -/
def Intn (n : ℤ) : MRand ℤ :=
  fun rng p => if 0 < n then some (((rng p : ℤ)) % n, p + 1) else none

/-- `rnd(from, to)` (image.go lines 226-228): `rand.Intn(to+1-from) + from`,
a uniform draw in the closed interval `[lo, hi]`. -/
def rnd (lo hi : ℤ) : MRand ℤ :=
  mbind (Intn (hi + 1 - lo)) (fun v => mret (lo + v))

/-- `rand.Float64()`: one draw giving a rational in `[0, 1)`, embedding the
53-bit mantissa construction. -/
def randFloat64 : MRand ℚ :=
  fun rng p => some (((rng p % 2 ^ 53 : ℕ) : ℚ) / 2 ^ 53, p + 1)

/-- `setRandomBrightness(c, max)` (image.go lines 191-201): no-op when the
largest channel exceeds `max`; otherwise one shared delta
`n = Intn(max - maxc) - minc` is added to all three channels, each converted
back through `uint8` (`% 256`). -/
def setRandomBrightness (c : Color) (mx : ℕ) : MRand Color :=
  let minc := min3 c.r c.g c.b
  let maxc := max3 c.r c.g c.b
  if maxc > mx then mret c
  else
    mbind (Intn ((mx : ℤ) - (maxc : ℤ))) (fun v =>
      let n : ℤ := v - (minc : ℤ)
      mret { r := (((c.r : ℤ) + n) % 256).toNat
             g := (((c.g : ℤ) + n) % 256).toNat
             b := (((c.b : ℤ) + n) % 256).toNat
             a := c.a })

/-- The `CaptchaImage` struct: the NRGBA buffer plus the fields set by
`NewImage`/`calculateSizes`. -/
structure CaptchaImage where
  canvas : Canvas
  primaryColor : Color
  numWidth : ℤ
  numHeight : ℤ
  dotSize : ℤ

/-- The `for i := 0; i < n; i++` loop of `fillWithCircles`: the local `color`
variable accumulates brightness jitter across iterations; `maxx`/`maxy` are
the canvas bounds. -/
def fillLoop (maxradius maxx maxy : ℤ) (count : ℕ) (color : Color) (cv : Canvas) :
    MRand Canvas :=
  match count with
  | 0 => mret cv
  | k + 1 =>
    mbind (setRandomBrightness color 255) (fun color1 =>
    mbind (rnd 1 maxradius) (fun r =>
    mbind (rnd r (maxx - r)) (fun cx =>
    mbind (rnd r (maxy - r)) (fun cy =>
    fillLoop maxradius maxx maxy k color1 (drawCircle color1 cx cy r cv)))))

/-- `fillWithCircles(n, maxradius)` (image.go lines 143-152): draws `n` jittered
circles; only the pixel buffer of the receiver changes. -/
def fillWithCircles (img : CaptchaImage) (n : ℕ) (maxradius : ℤ) : MRand CaptchaImage :=
  mbind (fillLoop maxradius img.canvas.width img.canvas.height n img.primaryColor img.canvas)
    (fun cv => mret { img with canvas := cv })

/-- `1 ≤ r` for any successful `rnd 1 hi` draw; stated for use in the
termination argument of `strikeLoop`. -/
theorem rnd_one_le {hi : ℤ} {rng : ℕ → ℕ} {p : ℕ} {r : ℤ} {p1 : ℕ}
    (h : rnd 1 hi rng p = some (r, p1)) : 1 ≤ r := by
  unfold rnd mbind Intn mret at h
  by_cases h0 : 0 < hi + 1 - 1
  · simp only [if_pos h0] at h
    obtain ⟨h1, h2⟩ := Prod.mk.injEq .. ▸ Option.some.injEq .. ▸ h
    have := Int.emod_nonneg ((rng p : ℤ)) (by omega : hi + 1 - 1 ≠ 0)
    omega
  · simp only [if_neg h0] at h
    exact absurd h (by simp)

/-- The `for x := 0; x < maxx; x += r` loop of `strikeThrough` (image.go lines
159-166): each pass draws one step circle of radius `r ≥ 1` and advances `x`
by `r`, so `maxx - x` strictly decreases. -/
def strikeLoop (c : Color) (ds maxx maxy : ℤ) (x y : ℤ) (cv : Canvas)
    (rng : ℕ → ℕ) (p : ℕ) : Option (Canvas × ℕ) :=
  if hx : x < maxx then
    match hr : rnd 1 (Int.tdiv ds 2 - 1) rng p with
    | none => none
    | some (r, p1) =>
      match rnd (-(Int.tdiv ds 2)) (Int.tdiv ds 2) rng p1 with
      | none => none
      | some (dy, p2) =>
        match (if y + dy ≤ 0 ∨ maxy ≤ y + dy then
                 rnd (Int.tdiv maxy 3) (maxy - Int.tdiv maxy 3) rng p2
               else some (y + dy, p2)) with
        | none => none
        | some (y2, p3) =>
          strikeLoop c ds maxx maxy (x + r) y2 (drawCircle c x y2 r cv) rng p3
  else some (cv, p)
termination_by (maxx - x).toNat
decreasing_by
  have := rnd_one_le hr
  omega

/-- `strikeThrough()` (image.go lines 154-167): pick a starting row in the
middle third, then run the wandering-step loop from `x = 0`. -/
def strikeThrough (img : CaptchaImage) : MRand CaptchaImage :=
  let maxx := img.canvas.width
  let maxy := img.canvas.height
  mbind (rnd (Int.tdiv maxy 3) (maxy - Int.tdiv maxy 3)) (fun y =>
    fun rng p =>
      match strikeLoop img.primaryColor img.dotSize maxx maxy 0 y img.canvas rng p with
      | none => none
      | some (cv, p1) => some ({ img with canvas := cv }, p1))

/-- Inner `for xx` loop of `drawNumber`: `rem` columns remain, the current
column index is `xx`.  For each black glyph cell, one radius draw and two
offset draws produce a jittered dot. -/
def colLoop (c : Color) (glyph : ℕ → Bool) (fw : ℕ) (ds minr maxr : ℤ) (x y : ℤ)
    (yy : ℕ) (xx : ℕ) (rem : ℕ) (cv : Canvas) : MRand Canvas :=
  match rem with
  | 0 => mret cv
  | k + 1 =>
    if glyph (yy * fw + xx) then
      mbind (rnd minr maxr) (fun rr =>
      mbind (rnd 0 (Int.tdiv rr 2)) (fun jx =>
      mbind (rnd 0 (Int.tdiv rr 2)) (fun jy =>
      colLoop c glyph fw ds minr maxr x y yy (xx + 1) k
        (drawCircle c (x + (xx : ℤ) * ds + jx) (y + (yy : ℤ) * ds + jy) rr cv))))
    else colLoop c glyph fw ds minr maxr x y yy (xx + 1) k cv

/-- Outer `for yy` loop of `drawNumber`: after each row the skew accumulator
`xs` advances by `skf` and the integer origin `x` is refreshed by `int(xs)`. -/
def rowLoop (c : Color) (glyph : ℕ → Bool) (fw : ℕ) (ds minr maxr : ℤ) (skf : ℚ)
    (y : ℤ) (yy : ℕ) (rem : ℕ) (x : ℤ) (xs : ℚ) (cv : Canvas) : MRand Canvas :=
  match rem with
  | 0 => mret cv
  | k + 1 =>
    mbind (colLoop c glyph fw ds minr maxr x y yy 0 fw cv) (fun cv1 =>
      let xs1 := xs + skf
      rowLoop c glyph fw ds minr maxr skf y (yy + 1) k (gtrunc xs1) xs1 cv1)

/-- `maxSkew` constant from image.go. -/
def maxSkew : ℤ := 2

/-- `drawNumber(number, x, y)` (image.go lines 169-189), parameterized by the
font grid dimensions.  `glyph i` tells whether flat bitmap index `i` holds
`blackChar` (the font table source file is not part of `src/`). -/
def drawNumber (fw fh : ℕ) (img : CaptchaImage) (glyph : ℕ → Bool) (x y : ℤ) :
    MRand CaptchaImage :=
  mbind randFloat64 (fun u =>
  mbind (rnd (-maxSkew) maxSkew) (fun sk =>
  let skf : ℚ := u * ((sk : ℤ) : ℚ)
  let minr := Int.tdiv img.dotSize 2
  let maxr := Int.tdiv img.dotSize 2 + Int.tdiv img.dotSize 4
  mbind (rnd (-minr) minr) (fun jy =>
  mbind (rowLoop img.primaryColor glyph fw img.dotSize minr maxr skf (y + jy) 0 fh x
          ((x : ℤ) : ℚ) img.canvas) (fun cv =>
  mret { img with canvas := cv }))))

/-- The `for _, n := range numbers` loop of `NewImage` (image.go lines 53-56):
draw each digit, then advance the cursor by `numWidth + dotSize`. -/
def drawNumbers (fw fh : ℕ) (font : ℕ → ℕ → Bool) (img : CaptchaImage)
    (numbers : List ℕ) (x y : ℤ) : MRand CaptchaImage :=
  match numbers with
  | [] => mret img
  | n :: rest =>
    mbind (drawNumber fw fh img (font n) x y) (fun img1 =>
      drawNumbers fw fh font img1 rest (x + img1.numWidth + img1.dotSize) y)

/-- The random anchor choice of `NewImage` (image.go lines 47-51): the top-left
corner of the digit row, drawn from `[2·dotSize, maxx] × [2·dotSize, maxy]`. -/
def captchaAnchor (width height nw nh ds : ℤ) (n : ℕ) : MRand (ℤ × ℤ) :=
  let maxx := width - (nw + ds) * (n : ℤ) - ds
  let maxy := height - nh - ds * 2
  mbind (rnd (ds * 2) maxx) (fun x =>
  mbind (rnd (ds * 2) maxy) (fun y =>
  mret (x, y)))

/-- `NewImage(numbers, width, height)` (image.go lines 34-60), parameterized by
the font table: fresh zeroed canvas, random dark primary color, layout, ten
background circles, random anchor, digit row, strike-through line. -/
def NewImage (fw fh : ℕ) (font : ℕ → ℕ → Bool) (numbers : List ℕ)
    (width height : ℤ) : MRand CaptchaImage :=
  mbind (Intn 129) (fun cr =>
  mbind (Intn 129) (fun cg =>
  mbind (Intn 129) (fun cb =>
  let sizes := calculateSizes fw fh width height (numbers.length : ℤ)
  let img0 : CaptchaImage :=
    { canvas := { width := width, height := height, pix := fun _ _ => ⟨0, 0, 0, 0⟩ }
      primaryColor := ⟨cr.toNat, cg.toNat, cb.toNat, 255⟩
      numWidth := sizes.numWidth
      numHeight := sizes.numHeight
      dotSize := sizes.dotSize }
  mbind (fillWithCircles img0 10 img0.dotSize) (fun img1 =>
  mbind (captchaAnchor width height img1.numWidth img1.numHeight img1.dotSize
          numbers.length) (fun xy =>
  mbind (drawNumbers fw fh font img1 numbers xy.1 xy.2) (fun img2 =>
  strikeThrough img2))))))

/-! ## Layout engine: `calculateSizes` -/

theorem gtrunc_of_nonneg {q : ℚ} (h : 0 ≤ q) : gtrunc q = Int.floor q := by
  unfold gtrunc
  rw [if_neg (not_lt.mpr h)]

theorem div_natCast_le_self (q : ℚ) (n : ℕ) (hq : 0 ≤ q) : q / (n : ℚ) ≤ q := by
  rcases Nat.eq_zero_or_pos n with h0 | h0
  · rw [h0]
    rw [Nat.cast_zero, div_zero]
    exact hq
  · exact div_le_self hq (by exact_mod_cast h0)

/-- The usable area of `calculateSizes` is nonnegative for positive inputs. -/
theorem border_bounds {width height : ℤ} (hw : 0 < width) (hh : 0 < height) :
    0 ≤ width - (if width > height then Int.tdiv height 5 else Int.tdiv width 5) * 2 ∧
    0 ≤ height - (if width > height then Int.tdiv height 5 else Int.tdiv width 5) * 2 := by
  have h5 : (0 : ℤ) ≤ 5 := by norm_num
  rcases lt_or_ge height width with h | h
  · rw [if_pos h]
    rw [Int.tdiv_eq_ediv (by omega) h5]
    omega
  · rw [if_neg (not_lt.mpr h)]
    rw [Int.tdiv_eq_ediv (by omega) h5]
    omega

/-- All three layout fields are nonnegative for positive inputs: the shared
core of the guarantees on `calculateSizes`. -/
theorem calculateSizes_nonneg (fontWidth fontHeight : ℕ) (width height ncount : ℤ)
    (hw : 0 < width) (hh : 0 < height) (hc : 1 ≤ ncount) :
    0 ≤ (calculateSizes fontWidth fontHeight width height ncount).numWidth ∧
    0 ≤ (calculateSizes fontWidth fontHeight width height ncount).numHeight ∧
    0 ≤ (calculateSizes fontWidth fontHeight width height ncount).dotSize := by
  obtain ⟨hwb, hhb⟩ := border_bounds hw hh
  unfold calculateSizes
  simp only
  set b : ℤ := if width > height then Int.tdiv height 5 else Int.tdiv width 5 with hb
  have hwq : (0 : ℚ) ≤ ((width - b * 2 : ℤ) : ℚ) := by exact_mod_cast hwb
  have hhq : (0 : ℚ) ≤ ((height - b * 2 : ℤ) : ℚ) := by exact_mod_cast hhb
  have hncq : (0 : ℚ) ≤ ((ncount : ℤ) : ℚ) := by exact_mod_cast (by omega : (0:ℤ) ≤ ncount)
  have hfh : (0 : ℚ) ≤ (fontHeight : ℚ) := by positivity
  have hfw : (0 : ℚ) ≤ (fontWidth : ℚ) + 1 := by positivity
  have hnw : (0 : ℚ) ≤ ((width - b * 2 : ℤ) : ℚ) / ((ncount : ℤ) : ℚ) :=
    div_nonneg hwq hncq
  have hnh : (0 : ℚ) ≤ ((width - b * 2 : ℤ) : ℚ) / ((ncount : ℤ) : ℚ) * (fontHeight : ℚ)
      / ((fontWidth : ℚ) + 1) := div_nonneg (mul_nonneg hnw hfh) hfw
  have hnw2 : (0 : ℚ) ≤ (if ((width - b * 2 : ℤ) : ℚ) / ((ncount : ℤ) : ℚ) * (fontHeight : ℚ)
      / ((fontWidth : ℚ) + 1) > ((height - b * 2 : ℤ) : ℚ) then
        ((fontWidth : ℚ) + 1) / (fontHeight : ℚ) * ((height - b * 2 : ℤ) : ℚ)
      else ((width - b * 2 : ℤ) : ℚ) / ((ncount : ℤ) : ℚ)) := by
    split
    · exact mul_nonneg (div_nonneg hfw hfh) hhq
    · exact hnw
  have hnh2 : (0 : ℚ) ≤ (if ((width - b * 2 : ℤ) : ℚ) / ((ncount : ℤ) : ℚ) * (fontHeight : ℚ)
      / ((fontWidth : ℚ) + 1) > ((height - b * 2 : ℤ) : ℚ) then ((height - b * 2 : ℤ) : ℚ)
      else ((width - b * 2 : ℤ) : ℚ) / ((ncount : ℤ) : ℚ) * (fontHeight : ℚ)
      / ((fontWidth : ℚ) + 1)) := by
    split
    · exact hhq
    · exact hnh
  refine ⟨?_, ?_, ?_⟩
  · rw [gtrunc_of_nonneg hnw2]
    exact Int.floor_nonneg.mpr hnw2
  · rw [gtrunc_of_nonneg hnh2, gtrunc_of_nonneg (div_nonneg hnh2 hfh)]
    have hle := div_natCast_le_self _ fontHeight hnh2
    have := Int.floor_le_floor hle
    omega
  · rw [gtrunc_of_nonneg (div_nonneg hnh2 hfh)]
    exact Int.floor_nonneg.mpr (div_nonneg hnh2 hfh)

/-- The source layout computation coincides with the specification's wording of
the algorithm, for positive inputs. -/
theorem calculateSizes_eq_spec (fontWidth fontHeight : ℕ) (width height ncount : ℤ)
    (hw : 0 < width) (hh : 0 < height) (hc : 1 ≤ ncount) :
    calculateSizes fontWidth fontHeight width height ncount
      = computeLayoutSpec fontWidth fontHeight width height ncount := by
  obtain ⟨hwb, hhb⟩ := border_bounds hw hh
  have hbmin : (if width > height then Int.tdiv height 5 else Int.tdiv width 5)
      = Int.tdiv (min width height) 5 := by
    rcases lt_or_ge height width with h | h
    · rw [if_pos h, min_eq_right h.le]
    · rw [if_neg (not_lt.mpr h), min_eq_left h]
  unfold calculateSizes computeLayoutSpec
  simp only
  rw [← hbmin]
  set b : ℤ := if width > height then Int.tdiv height 5 else Int.tdiv width 5 with hbdef
  have h2b : width - 2 * b = width - b * 2 := by ring
  have h2bh : height - 2 * b = height - b * 2 := by ring
  rw [h2b, h2bh]
  have hwq : (0 : ℚ) ≤ ((width - b * 2 : ℤ) : ℚ) := by exact_mod_cast hwb
  have hhq : (0 : ℚ) ≤ ((height - b * 2 : ℤ) : ℚ) := by exact_mod_cast hhb
  have hncq : (0 : ℚ) ≤ ((ncount : ℤ) : ℚ) := by exact_mod_cast (by omega : (0:ℤ) ≤ ncount)
  have hfh : (0 : ℚ) ≤ (fontHeight : ℚ) := by positivity
  have hfw : (0 : ℚ) ≤ (fontWidth : ℚ) + 1 := by positivity
  have hnw : (0 : ℚ) ≤ ((width - b * 2 : ℤ) : ℚ) / ((ncount : ℤ) : ℚ) :=
    div_nonneg hwq hncq
  have hnh : (0 : ℚ) ≤ ((width - b * 2 : ℤ) : ℚ) / ((ncount : ℤ) : ℚ) * (fontHeight : ℚ)
      / ((fontWidth : ℚ) + 1) := div_nonneg (mul_nonneg hnw hfh) hfw
  by_cases hcond : ((width - b * 2 : ℤ) : ℚ) / ((ncount : ℤ) : ℚ) * (fontHeight : ℚ)
      / ((fontWidth : ℚ) + 1) > ((height - b * 2 : ℤ) : ℚ)
  · simp only [if_pos hcond]
    have hnw2 : (0 : ℚ) ≤ ((fontWidth : ℚ) + 1) / (fontHeight : ℚ) * ((height - b * 2 : ℤ) : ℚ) :=
      mul_nonneg (div_nonneg hfw hfh) hhq
    rw [gtrunc_of_nonneg hnw2, gtrunc_of_nonneg hhq, gtrunc_of_nonneg (div_nonneg hhq hfh)]
  · simp only [if_neg hcond]
    rw [gtrunc_of_nonneg hnw, gtrunc_of_nonneg hnh, gtrunc_of_nonneg (div_nonneg hnh hfh)]

/-- C1: for all positive `width`, `height` and `digitCount ≥ 1`,
`calculateSizes` follows exactly the specified algorithm: border =
min(width,height)/5, usable area (width-2·border, height-2·border), candidate
`nw = usableWidth/digitCount`, `nh = nw·fontHeight/(fontWidth+1)`, the
height-constrained fallback `nh = usableHeight`,
`nw = (fontWidth+1)/fontHeight·nh`, then `dotSize = floor(nh/fontHeight)`,
`numWidth = floor(nw)`, `numHeight = floor(nh) - dotSize`. -/
theorem layout_follows_spec_algorithm (fontWidth fontHeight : ℕ)
    (width height ncount : ℤ) (hw : 0 < width) (hh : 0 < height) (hc : 1 ≤ ncount) :
    calculateSizes fontWidth fontHeight width height ncount
      = computeLayoutSpec fontWidth fontHeight width height ncount :=
  calculateSizes_eq_spec fontWidth fontHeight width height ncount hw hh hc

theorem layout_follows_spec_algorithm_witness :
    (0:ℤ) < 300 ∧ (0:ℤ) < 80 ∧ (1:ℤ) ≤ 5 ∧
    calculateSizes 5 8 300 80 5 = computeLayoutSpec 5 8 300 80 5 :=
  ⟨by norm_num, by norm_num, by norm_num,
   layout_follows_spec_algorithm 5 8 300 80 5 (by norm_num) (by norm_num) (by norm_num)⟩

/-- C3 counterexample: at the valid input `width = 5`, `height = 5`,
`digitCount = 5` (the spec's own "digitCount equal to width" boundary, with a
5×8 font grid) the computed `numWidth` and `numHeight` are both `0`, not
positive as the claim states. -/
theorem layout_numWidth_zero_at_5_5_5 :
    (calculateSizes 5 8 5 5 5).numWidth = 0 ∧ (calculateSizes 5 8 5 5 5).numHeight = 0 := by
  norm_num [calculateSizes, gtrunc, Int.tdiv]

/-- C3 amended: for every `width > 0`, `height > 0` and `digitCount ≥ 1`,
`calculateSizes` returns `numWidth ≥ 0`, `numHeight ≥ 0` and `dotSize ≥ 0`
(all three can degenerate to `0`, but never to a negative size or a crash). -/
theorem layout_fields_nonneg (fontWidth fontHeight : ℕ) (width height ncount : ℤ)
    (hw : 0 < width) (hh : 0 < height) (hc : 1 ≤ ncount) :
    0 ≤ (calculateSizes fontWidth fontHeight width height ncount).numWidth ∧
    0 ≤ (calculateSizes fontWidth fontHeight width height ncount).numHeight ∧
    0 ≤ (calculateSizes fontWidth fontHeight width height ncount).dotSize :=
  calculateSizes_nonneg fontWidth fontHeight width height ncount hw hh hc

theorem layout_fields_nonneg_witness :
    (0:ℤ) < 5 ∧ (0:ℤ) < 5 ∧ (1:ℤ) ≤ 5 ∧
    (0 ≤ (calculateSizes 5 8 5 5 5).numWidth ∧
     0 ≤ (calculateSizes 5 8 5 5 5).numHeight ∧
     0 ≤ (calculateSizes 5 8 5 5 5).dotSize) :=
  ⟨by norm_num, by norm_num, by norm_num,
   layout_fields_nonneg 5 8 5 5 5 (by norm_num) (by norm_num) (by norm_num)⟩

/-! ## Rasterizer: `drawHorizLine` and `drawCircle` -/

theorem Canvas.set_width (cv : Canvas) (x y : ℤ) (c : Color) :
    (cv.set x y c).width = cv.width := by
  unfold Canvas.set
  split <;> rfl

theorem Canvas.set_height (cv : Canvas) (x y : ℤ) (c : Color) :
    (cv.set x y c).height = cv.height := by
  unfold Canvas.set
  split <;> rfl

/-- A pixel already holding the drawing color keeps it after any `set` with
that color. -/
theorem Canvas.set_pix_preserve {cv : Canvas} {a b : ℤ} {c : Color}
    (h : cv.pix a b = c) (x y : ℤ) : (cv.set x y c).pix a b = c := by
  unfold Canvas.set
  split
  · simp only
    split
    · rfl
    · exact h
  · exact h

/-- A write inside the bounds lands. -/
theorem Canvas.set_pix_eq {cv : Canvas} {x y : ℤ} (c : Color)
    (hx0 : 0 ≤ x) (hxw : x < cv.width) (hy0 : 0 ≤ y) (hyh : y < cv.height) :
    (cv.set x y c).pix x y = c := by
  unfold Canvas.set
  rw [if_pos ⟨hx0, hxw, hy0, hyh⟩]
  simp

/-- A write elsewhere leaves a pixel unchanged. -/
theorem Canvas.set_pix_unchanged {cv : Canvas} {a b x y : ℤ} (c : Color)
    (h : ¬(a = x ∧ b = y)) : (cv.set x y c).pix a b = cv.pix a b := by
  unfold Canvas.set
  split
  · simp only
    rw [if_neg h]
  · rfl

theorem hlineGo_width (c : Color) (x y : ℤ) (n : ℕ) (cv : Canvas) :
    (hlineGo c x y n cv).width = cv.width := by
  induction n generalizing x cv with
  | zero => rfl
  | succ m ih => rw [hlineGo, ih, Canvas.set_width]

theorem hlineGo_height (c : Color) (x y : ℤ) (n : ℕ) (cv : Canvas) :
    (hlineGo c x y n cv).height = cv.height := by
  induction n generalizing x cv with
  | zero => rfl
  | succ m ih => rw [hlineGo, ih, Canvas.set_height]

theorem hlineGo_preserve {c : Color} {a b : ℤ} {cv : Canvas} (h : cv.pix a b = c)
    (x y : ℤ) (n : ℕ) : (hlineGo c x y n cv).pix a b = c := by
  induction n generalizing x cv with
  | zero => exact h
  | succ m ih => exact ih (Canvas.set_pix_preserve h x y) (x + 1)

theorem drawHorizLine_width (c : Color) (fromX toX y : ℤ) (cv : Canvas) :
    (drawHorizLine c fromX toX y cv).width = cv.width := hlineGo_width ..

theorem drawHorizLine_height (c : Color) (fromX toX y : ℤ) (cv : Canvas) :
    (drawHorizLine c fromX toX y cv).height = cv.height := hlineGo_height ..

theorem drawHorizLine_preserve {c : Color} {a b : ℤ} {cv : Canvas} (h : cv.pix a b = c)
    (fromX toX y : ℤ) : (drawHorizLine c fromX toX y cv).pix a b = c :=
  hlineGo_preserve h fromX y _

theorem circleLoop_width_aux (c : Color) (x y : ℤ) :
    ∀ (n : ℕ) (f dfx dfy xx yy : ℤ) (cv : Canvas), (yy - xx).toNat ≤ n →
    (circleLoop c x y f dfx dfy xx yy cv).width = cv.width := by
  intro n
  induction n with
  | zero =>
    intro f dfx dfy xx yy cv hm
    rw [circleLoop, if_neg (by omega)]
  | succ k ih =>
    intro f dfx dfy xx yy cv hm
    rw [circleLoop]
    split
    · next h =>
      simp only
      rw [ih _ _ _ _ _ _ (by split <;> omega)]
      simp only [drawHorizLine_width]
    · rfl

theorem circleLoop_width (c : Color) (x y f dfx dfy xx yy : ℤ) (cv : Canvas) :
    (circleLoop c x y f dfx dfy xx yy cv).width = cv.width :=
  circleLoop_width_aux c x y (yy - xx).toNat f dfx dfy xx yy cv le_rfl

theorem circleLoop_height_aux (c : Color) (x y : ℤ) :
    ∀ (n : ℕ) (f dfx dfy xx yy : ℤ) (cv : Canvas), (yy - xx).toNat ≤ n →
    (circleLoop c x y f dfx dfy xx yy cv).height = cv.height := by
  intro n
  induction n with
  | zero =>
    intro f dfx dfy xx yy cv hm
    rw [circleLoop, if_neg (by omega)]
  | succ k ih =>
    intro f dfx dfy xx yy cv hm
    rw [circleLoop]
    split
    · next h =>
      simp only
      rw [ih _ _ _ _ _ _ (by split <;> omega)]
      simp only [drawHorizLine_height]
    · rfl

theorem circleLoop_height (c : Color) (x y f dfx dfy xx yy : ℤ) (cv : Canvas) :
    (circleLoop c x y f dfx dfy xx yy cv).height = cv.height :=
  circleLoop_height_aux c x y (yy - xx).toNat f dfx dfy xx yy cv le_rfl

theorem circleLoop_preserve_aux {c : Color} {a b : ℤ} (x y : ℤ) :
    ∀ (n : ℕ) (f dfx dfy xx yy : ℤ) (cv : Canvas), (yy - xx).toNat ≤ n →
    cv.pix a b = c → (circleLoop c x y f dfx dfy xx yy cv).pix a b = c := by
  intro n
  induction n with
  | zero =>
    intro f dfx dfy xx yy cv hm h
    rw [circleLoop, if_neg (by omega)]
    exact h
  | succ k ih =>
    intro f dfx dfy xx yy cv hm h
    rw [circleLoop]
    split
    · next hlt =>
      simp only
      exact ih _ _ _ _ _ _ (by split <;> omega)
        (drawHorizLine_preserve (drawHorizLine_preserve (drawHorizLine_preserve
          (drawHorizLine_preserve h _ _ _) _ _ _) _ _ _) _ _ _)
    · exact h

theorem circleLoop_preserve {c : Color} {a b : ℤ} (x y : ℤ)
    (f dfx dfy xx yy : ℤ) (cv : Canvas) (h : cv.pix a b = c) :
    (circleLoop c x y f dfx dfy xx yy cv).pix a b = c :=
  circleLoop_preserve_aux x y (yy - xx).toNat f dfx dfy xx yy cv le_rfl h

/-- Every pixel of the span written by `hlineGo` that lies inside the canvas
ends up holding the drawing color. -/
theorem hlineGo_sets {c : Color} {cv : Canvas} {y t : ℤ}
    (ht0 : 0 ≤ t) (htw : t < cv.width) (hy0 : 0 ≤ y) (hyh : y < cv.height) :
    ∀ (n : ℕ) (x : ℤ) (cv2 : Canvas), cv2.width = cv.width → cv2.height = cv.height →
    x ≤ t → t < x + n → (hlineGo c x y n cv2).pix t y = c := by
  intro n
  induction n with
  | zero =>
    intro x cv2 _ _ hxt htn
    omega
  | succ m ih =>
    intro x cv2 hw hh hxt htn
    rw [hlineGo]
    rcases eq_or_lt_of_le hxt with heq | hlt
    · subst heq
      exact hlineGo_preserve
        (Canvas.set_pix_eq c ht0 (by omega) hy0 (by omega)) (x + 1) y m
    · exact ih (x + 1) (cv2.set x y c) (by rw [Canvas.set_width, hw])
        (by rw [Canvas.set_height, hh]) (by omega) (by omega)

/-- `drawHorizLine` sets the whole closed span `[fromX, toX]` at row `y` (for
in-bounds pixels). -/
theorem drawHorizLine_sets {c : Color} {cv : Canvas} {fromX toX y t : ℤ}
    (hxt : fromX ≤ t) (htx : t ≤ toX)
    (ht0 : 0 ≤ t) (htw : t < cv.width) (hy0 : 0 ≤ y) (hyh : y < cv.height) :
    (drawHorizLine c fromX toX y cv).pix t y = c := by
  unfold drawHorizLine
  exact hlineGo_sets ht0 htw hy0 hyh _ fromX cv rfl rfl hxt (by omega)

/-- C4: for every radius `r ≥ 1` and center `(x, y)` whose touched bounding
box lies inside the canvas, `drawCircle` sets the polar pixels `(x, y+r)` and
`(x, y-r)` and the whole horizontal span `[x-r, x+r]` at row `y` to the given
color. -/
theorem drawCircle_sets_polar_and_chord (c : Color) (x y r : ℤ) (cv : Canvas)
    (hr : 1 ≤ r) (h1 : 0 ≤ x - r) (h2 : x + r < cv.width)
    (h3 : 0 ≤ y - r) (h4 : y + r < cv.height) :
    (drawCircle c x y r cv).pix x (y + r) = c ∧
    (drawCircle c x y r cv).pix x (y - r) = c ∧
    ∀ t, x - r ≤ t → t ≤ x + r → (drawCircle c x y r cv).pix t y = c := by
  unfold drawCircle
  simp only
  have hset1 : (cv.set x (y + r) c).pix x (y + r) = c :=
    Canvas.set_pix_eq c (by omega) (by omega) (by omega) h4
  have hw1 := Canvas.set_width cv x (y + r) c
  have hh1 := Canvas.set_height cv x (y + r) c
  have hset2 : ((cv.set x (y + r) c).set x (y - r) c).pix x (y - r) = c :=
    Canvas.set_pix_eq c (by omega) (by omega : x < (cv.set x (y + r) c).width) h3
      (by omega : y - r < (cv.set x (y + r) c).height)
  have hw2 := Canvas.set_width (cv.set x (y + r) c) x (y - r) c
  have hh2 := Canvas.set_height (cv.set x (y + r) c) x (y - r) c
  refine ⟨?_, ?_, ?_⟩
  · exact circleLoop_preserve x y _ _ _ _ _ _
      (drawHorizLine_preserve (Canvas.set_pix_preserve hset1 x (y - r)) _ _ _)
  · exact circleLoop_preserve x y _ _ _ _ _ _ (drawHorizLine_preserve hset2 _ _ _)
  · intro t htl htr
    refine circleLoop_preserve x y _ _ _ _ _ _ ?_
    exact drawHorizLine_sets htl htr (by omega) (by omega) (by omega) (by omega)

theorem drawCircle_sets_polar_and_chord_witness :
    (1:ℤ) ≤ 1 ∧
    ((drawCircle ⟨9, 9, 9, 255⟩ 1 1 1 ⟨3, 3, fun _ _ => ⟨0, 0, 0, 0⟩⟩).pix 1 (1 + 1)
        = ⟨9, 9, 9, 255⟩ ∧
     (drawCircle ⟨9, 9, 9, 255⟩ 1 1 1 ⟨3, 3, fun _ _ => ⟨0, 0, 0, 0⟩⟩).pix 1 (1 - 1)
        = ⟨9, 9, 9, 255⟩ ∧
     ∀ t, 1 - 1 ≤ t → t ≤ 1 + 1 →
       (drawCircle ⟨9, 9, 9, 255⟩ 1 1 1 ⟨3, 3, fun _ _ => ⟨0, 0, 0, 0⟩⟩).pix t 1
        = ⟨9, 9, 9, 255⟩) :=
  ⟨le_refl 1,
   drawCircle_sets_polar_and_chord ⟨9, 9, 9, 255⟩ 1 1 1 ⟨3, 3, fun _ _ => ⟨0, 0, 0, 0⟩⟩
     (by norm_num) (by norm_num) (by norm_num) (by norm_num) (by norm_num)⟩

/-- C5 counterexample: with radius `-1`, `drawCircle` still writes the two
polar pixels `(x, y+r)` and `(x, y-r)`, which differ from the center: on a
3×3 zeroed canvas, drawing at center `(1,1)` with radius `-1` recolors pixel
`(1, 2) ≠ (1, 1)`. -/
theorem drawCircle_neg_radius_modifies_noncenter :
    (drawCircle ⟨9, 9, 9, 255⟩ 1 1 (-1) ⟨3, 3, fun _ _ => ⟨0, 0, 0, 0⟩⟩).pix 1 2
      = ⟨9, 9, 9, 255⟩ ∧
    (⟨9, 9, 9, 255⟩ : Color) ≠ ⟨0, 0, 0, 0⟩ := by
  constructor
  · unfold drawCircle
    simp only
    rw [circleLoop, if_neg (by norm_num)]
    norm_num [drawHorizLine, hlineGo, Canvas.set]
  · decide

/-- C5 amended: for radius `r ≤ 0`, `drawCircle` terminates normally (it is a
total function) and modifies at most the two pixels `(x, y+r)` and `(x, y-r)`
— which both coincide with the center exactly when `r = 0`; every other pixel
is unchanged. -/
theorem drawCircle_nonpos_radius_frame (c : Color) (x y r : ℤ) (cv : Canvas)
    (hr : r ≤ 0) (a b : ℤ) (hne1 : ¬(a = x ∧ b = y + r)) (hne2 : ¬(a = x ∧ b = y - r)) :
    (drawCircle c x y r cv).pix a b = cv.pix a b := by
  unfold drawCircle
  simp only
  rw [circleLoop, if_neg (by omega)]
  rcases lt_or_eq_of_le hr with hlt | heq
  · have hn : (x + r + 1 - (x - r)).toNat = 0 := by omega
    unfold drawHorizLine
    rw [hn]
    rw [hlineGo]
    rw [Canvas.set_pix_unchanged c hne2, Canvas.set_pix_unchanged c hne1]
  · subst heq
    have hn : (x + 0 + 1 - (x - 0)).toNat = 1 := by norm_num
    unfold drawHorizLine
    rw [hn]
    rw [hlineGo, hlineGo]
    rw [Canvas.set_pix_unchanged c (by simpa using hne1),
      Canvas.set_pix_unchanged c (by simpa using hne2),
      Canvas.set_pix_unchanged c (by simpa using hne1)]

theorem drawCircle_nonpos_radius_frame_witness :
    (-1 : ℤ) ≤ 0 ∧ ¬((0:ℤ) = 1 ∧ (0:ℤ) = 1 + (-1)) ∧ ¬((0:ℤ) = 1 ∧ (0:ℤ) = 1 - (-1)) ∧
    (drawCircle ⟨9, 9, 9, 255⟩ 1 1 (-1) ⟨3, 3, fun _ _ => ⟨0, 0, 0, 0⟩⟩).pix 0 0
      = Canvas.pix ⟨3, 3, fun _ _ => ⟨0, 0, 0, 0⟩⟩ 0 0 :=
  ⟨by norm_num, by norm_num, by norm_num,
   drawCircle_nonpos_radius_frame ⟨9, 9, 9, 255⟩ 1 1 (-1) ⟨3, 3, fun _ _ => ⟨0, 0, 0, 0⟩⟩
     (by norm_num) 0 0 (by norm_num) (by norm_num)⟩

/-! ## Brightness jitter: `setRandomBrightness` -/

theorem min3_le (x y z : ℕ) : min3 x y z ≤ x ∧ min3 x y z ≤ y ∧ min3 x y z ≤ z := by
  unfold min3
  simp only
  split <;> split <;> omega

theorem le_max3 (x y z : ℕ) : x ≤ max3 x y z ∧ y ≤ max3 x y z ∧ z ≤ max3 x y z := by
  unfold max3
  simp only
  split <;> split <;> omega

/-- C7 counterexample: when the color's largest channel equals the ceiling,
`setRandomBrightness` is not a no-op: `rand.Intn` receives `max - maxc = 0`
and panics. -/
theorem setRandomBrightness_panics_at_ceiling :
    setRandomBrightness ⟨100, 100, 100, 255⟩ 100 (fun _ => 0) 0 = none := by
  decide

/-- C7 amended: for every color and ceiling `max ≤ 255`, `setRandomBrightness`
returns the color unchanged (consuming no randomness) when the largest channel
exceeds `max`; panics when the largest channel equals `max` (`Intn 0`); and
otherwise adds one single shared delta `n` to all three channels
simultaneously, with every resulting channel `≤ max` and alpha untouched. -/
theorem setRandomBrightness_shared_delta (c : Color) (mx : ℕ) (rng : ℕ → ℕ) (p : ℕ)
    (hmx : mx ≤ 255) :
    (max3 c.r c.g c.b > mx → setRandomBrightness c mx rng p = some (c, p)) ∧
    (max3 c.r c.g c.b = mx → setRandomBrightness c mx rng p = none) ∧
    (max3 c.r c.g c.b < mx → ∃ n : ℤ, ∃ c2 : Color,
      setRandomBrightness c mx rng p = some (c2, p + 1) ∧
      (c2.r : ℤ) = (c.r : ℤ) + n ∧ (c2.g : ℤ) = (c.g : ℤ) + n ∧
      (c2.b : ℤ) = (c.b : ℤ) + n ∧ c2.a = c.a ∧
      c2.r ≤ mx ∧ c2.g ≤ mx ∧ c2.b ≤ mx) := by
  obtain ⟨hm1, hm2, hm3⟩ := min3_le c.r c.g c.b
  obtain ⟨hx1, hx2, hx3⟩ := le_max3 c.r c.g c.b
  refine ⟨?_, ?_, ?_⟩
  · intro hgt
    unfold setRandomBrightness
    rw [if_pos hgt]
    rfl
  · intro heq
    unfold setRandomBrightness mbind Intn
    rw [if_neg (by omega)]
    simp only
    rw [if_neg (by omega)]
  · intro hlt
    unfold setRandomBrightness mbind Intn mret
    rw [if_neg (by omega)]
    simp only
    rw [if_pos (by omega)]
    set v : ℤ := ((rng p : ℕ) : ℤ) % ((mx : ℤ) - (max3 c.r c.g c.b : ℤ)) with hv
    have hv0 : 0 ≤ v := Int.emod_nonneg _ (by omega)
    have hv1 : v < (mx : ℤ) - (max3 c.r c.g c.b : ℤ) :=
      Int.emod_lt_of_pos _ (by omega)
    refine ⟨v - (min3 c.r c.g c.b : ℤ), _, rfl, ?_, ?_, ?_, rfl, ?_, ?_, ?_⟩ <;>
      simp only <;> omega

theorem setRandomBrightness_shared_delta_witness :
    (200 : ℕ) ≤ 255 ∧
    ((max3 (Color.r ⟨10, 20, 30, 255⟩) (Color.g ⟨10, 20, 30, 255⟩)
        (Color.b ⟨10, 20, 30, 255⟩) > 200 →
      setRandomBrightness ⟨10, 20, 30, 255⟩ 200 (fun _ => 0) 0 = some (⟨10, 20, 30, 255⟩, 0)) ∧
     (max3 (Color.r ⟨10, 20, 30, 255⟩) (Color.g ⟨10, 20, 30, 255⟩)
        (Color.b ⟨10, 20, 30, 255⟩) = 200 →
      setRandomBrightness ⟨10, 20, 30, 255⟩ 200 (fun _ => 0) 0 = none) ∧
     (max3 (Color.r ⟨10, 20, 30, 255⟩) (Color.g ⟨10, 20, 30, 255⟩)
        (Color.b ⟨10, 20, 30, 255⟩) < 200 → ∃ n : ℤ, ∃ c2 : Color,
      setRandomBrightness ⟨10, 20, 30, 255⟩ 200 (fun _ => 0) 0 = some (c2, 0 + 1) ∧
      (c2.r : ℤ) = ((Color.r ⟨10, 20, 30, 255⟩ : ℕ) : ℤ) + n ∧
      (c2.g : ℤ) = ((Color.g ⟨10, 20, 30, 255⟩ : ℕ) : ℤ) + n ∧
      (c2.b : ℤ) = ((Color.b ⟨10, 20, 30, 255⟩ : ℕ) : ℤ) + n ∧
      c2.a = Color.a ⟨10, 20, 30, 255⟩ ∧
      c2.r ≤ 200 ∧ c2.g ≤ 200 ∧ c2.b ≤ 200)) :=
  ⟨by decide, setRandomBrightness_shared_delta ⟨10, 20, 30, 255⟩ 200 (fun _ => 0) 0 (by decide)⟩

/-! ## The random stream: bounds, totality and stream-locality of draws -/

/-- A successful `rnd lo hi` draw lies in `[lo, hi]`, consumes exactly one
stream value, and requires a non-empty interval. -/
theorem rnd_bounds {lo hi v : ℤ} {rng : ℕ → ℕ} {p p1 : ℕ}
    (h : rnd lo hi rng p = some (v, p1)) :
    lo ≤ v ∧ v ≤ hi ∧ p1 = p + 1 ∧ lo ≤ hi := by
  unfold rnd mbind Intn mret at h
  by_cases h0 : 0 < hi + 1 - lo
  · rw [if_pos h0] at h
    simp only at h
    obtain ⟨h1, h2⟩ := Prod.mk.injEq .. ▸ Option.some.injEq .. ▸ h
    have hn := Int.emod_nonneg ((rng p : ℤ)) (by omega : hi + 1 - lo ≠ 0)
    have hl := Int.emod_lt_of_pos ((rng p : ℤ)) h0
    omega
  · rw [if_neg h0] at h
    exact absurd h (by simp)

/-- `rnd` succeeds exactly on non-empty intervals. -/
theorem rnd_total {lo hi : ℤ} (h : lo ≤ hi) (rng : ℕ → ℕ) (p : ℕ) :
    rnd lo hi rng p = some (lo + ((rng p : ℕ) : ℤ) % (hi + 1 - lo), p + 1) := by
  unfold rnd mbind Intn mret
  rw [if_pos (by omega)]

/-- `rnd` reads only the stream value at the current position. -/
theorem rnd_congr {lo hi : ℤ} {r1 r2 : ℕ → ℕ} {p : ℕ} (h : r2 p = r1 p) :
    rnd lo hi r2 p = rnd lo hi r1 p := by
  unfold rnd mbind Intn mret
  rw [h]

/-- A computation is stream-local when a successful run advances the position
and depends on the stream only through the consumed window `[p, p1)`. -/
def SLoc {β : Type} (m : MRand β) : Prop :=
  ∀ (r1 : ℕ → ℕ) (p : ℕ) (b : β) (p1 : ℕ), m r1 p = some (b, p1) →
    p ≤ p1 ∧ ∀ r2 : ℕ → ℕ, (∀ i, p ≤ i → i < p1 → r2 i = r1 i) → m r2 p = some (b, p1)

theorem SLoc_mret {β : Type} (b : β) : SLoc (mret b) := by
  intro r1 p b1 p1 h
  unfold mret at h
  obtain ⟨h1, h2⟩ := Prod.mk.injEq .. ▸ Option.some.injEq .. ▸ h
  subst h1
  subst h2
  exact ⟨le_rfl, fun r2 _ => rfl⟩

theorem SLoc_Intn (n : ℤ) : SLoc (Intn n) := by
  intro r1 p b1 p1 h
  unfold Intn at h
  by_cases h0 : 0 < n
  · rw [if_pos h0] at h
    obtain ⟨h1, h2⟩ := Prod.mk.injEq .. ▸ Option.some.injEq .. ▸ h
    refine ⟨by omega, fun r2 hag => ?_⟩
    unfold Intn
    rw [if_pos h0, hag p le_rfl (by omega), h1, h2]
  · rw [if_neg h0] at h
    exact absurd h (by simp)

theorem SLoc_randFloat64 : SLoc randFloat64 := by
  intro r1 p b1 p1 h
  unfold randFloat64 at h
  obtain ⟨h1, h2⟩ := Prod.mk.injEq .. ▸ Option.some.injEq .. ▸ h
  refine ⟨by omega, fun r2 hag => ?_⟩
  unfold randFloat64
  rw [hag p le_rfl (by omega), h1, h2]

theorem SLoc_mbind {β γ : Type} {m : MRand β} {f : β → MRand γ}
    (hm : SLoc m) (hf : ∀ b, SLoc (f b)) : SLoc (mbind m f) := by
  intro r1 p b p1 h
  unfold mbind at h
  cases hm1 : m r1 p with
  | none =>
    rw [hm1] at h
    exact absurd h (by simp)
  | some bp =>
    obtain ⟨b0, pm⟩ := bp
    rw [hm1] at h
    obtain ⟨hle1, hagree1⟩ := hm r1 p b0 pm hm1
    obtain ⟨hle2, hagree2⟩ := hf b0 r1 pm b p1 h
    refine ⟨le_trans hle1 hle2, fun r2 hag => ?_⟩
    unfold mbind
    rw [hagree1 r2 (fun i h1 h2 => hag i h1 (lt_of_lt_of_le h2 hle2))]
    exact hagree2 r2 (fun i h1 h2 => hag i (le_trans hle1 h1) h2)

theorem SLoc_rnd (lo hi : ℤ) : SLoc (rnd lo hi) :=
  SLoc_mbind (SLoc_Intn _) (fun v => SLoc_mret _)

theorem SLoc_setRandomBrightness (c : Color) (mx : ℕ) :
    SLoc (setRandomBrightness c mx) := by
  unfold setRandomBrightness
  simp only
  split
  · exact SLoc_mret _
  · exact SLoc_mbind (SLoc_Intn _) (fun v => SLoc_mret _)

/-! ## Background noise: `fillWithCircles` -/

theorem drawCircle_width (c : Color) (x y r : ℤ) (cv : Canvas) :
    (drawCircle c x y r cv).width = cv.width := by
  unfold drawCircle
  simp only
  rw [circleLoop_width, drawHorizLine_width, Canvas.set_width, Canvas.set_width]

theorem drawCircle_height (c : Color) (x y r : ℤ) (cv : Canvas) :
    (drawCircle c x y r cv).height = cv.height := by
  unfold drawCircle
  simp only
  rw [circleLoop_height, drawHorizLine_height, Canvas.set_height, Canvas.set_height]

theorem max3_lt {a b c k : ℕ} (h1 : a < k) (h2 : b < k) (h3 : c < k) :
    max3 a b c < k := by
  unfold max3
  simp only
  split <;> split <;> omega

/-- When the largest channel is strictly below the ceiling (which is at most
255), the brightness jitter succeeds, consumes one draw, and keeps the largest
channel strictly below the ceiling. -/
theorem setRandomBrightness_total {c : Color} {mx : ℕ} (hmx : mx ≤ 255)
    (hlt : max3 c.r c.g c.b < mx) (rng : ℕ → ℕ) (p : ℕ) :
    ∃ c2 : Color, setRandomBrightness c mx rng p = some (c2, p + 1) ∧
      max3 c2.r c2.g c2.b < mx := by
  obtain ⟨hm1, hm2, hm3⟩ := min3_le c.r c.g c.b
  obtain ⟨hx1, hx2, hx3⟩ := le_max3 c.r c.g c.b
  unfold setRandomBrightness mbind Intn mret
  rw [if_neg (by omega)]
  simp only
  rw [if_pos (by omega)]
  have hv0 : 0 ≤ ((rng p : ℕ) : ℤ) % ((mx : ℤ) - (max3 c.r c.g c.b : ℤ)) :=
    Int.emod_nonneg _ (by omega)
  have hv1 : ((rng p : ℕ) : ℤ) % ((mx : ℤ) - (max3 c.r c.g c.b : ℤ))
      < (mx : ℤ) - (max3 c.r c.g c.b : ℤ) := Int.emod_lt_of_pos _ (by omega)
  have hch : ∀ ch : ℕ, min3 c.r c.g c.b ≤ ch → ch ≤ max3 c.r c.g c.b →
      (((ch : ℤ) + (((rng p : ℕ) : ℤ) % ((mx : ℤ) - (max3 c.r c.g c.b : ℤ))
        - (min3 c.r c.g c.b : ℤ))) % 256).toNat < mx := by
    intro ch h1 h2
    omega
  exact ⟨_, rfl, max3_lt (hch c.r hm1 hx1) (hch c.g hm2 hx2) (hch c.b hm3 hx3)⟩

/-- Stepping a successful first component through `mbind`. -/
theorem mbind_eq_some_step {β γ : Type} (m : MRand β) (f : β → MRand γ)
    (rng : ℕ → ℕ) (p : ℕ) (b : β) (pm : ℕ) (h : m rng p = some (b, pm)) :
    mbind m f rng p = f b rng pm := by
  unfold mbind
  rw [h]

/-- A failing first component fails the whole `mbind`. -/
theorem mbind_eq_none_step {β γ : Type} (m : MRand β) (f : β → MRand γ)
    (rng : ℕ → ℕ) (p : ℕ) (h : m rng p = none) :
    mbind m f rng p = none := by
  unfold mbind
  rw [h]

theorem fillLoop_total {maxr maxx maxy : ℤ} (hr : 1 ≤ maxr) (hx : 2 * maxr ≤ maxx)
    (hy : 2 * maxr ≤ maxy) :
    ∀ (count : ℕ) (color : Color) (cv : Canvas) (rng : ℕ → ℕ) (p : ℕ),
    max3 color.r color.g color.b < 255 →
    ∃ cv1 p1, fillLoop maxr maxx maxy count color cv rng p = some (cv1, p1) := by
  intro count
  induction count with
  | zero =>
    intro color cv rng p _
    exact ⟨cv, p, rfl⟩
  | succ k ih =>
    intro color cv rng p hc
    obtain ⟨c2, hc2, hinv⟩ := setRandomBrightness_total le_rfl hc rng p
    have h2 := rnd_total (show (1:ℤ) ≤ maxr from hr) rng (p + 1)
    obtain ⟨hrl, hru, _, _⟩ := rnd_bounds h2
    set r : ℤ := 1 + ((rng (p + 1) : ℕ) : ℤ) % (maxr + 1 - 1) with hrdef
    have h3 := rnd_total (show r ≤ maxx - r by omega) rng (p + 2)
    have h4 := rnd_total (show r ≤ maxy - r by omega) rng (p + 3)
    obtain ⟨cvf, pf, h5⟩ := ih c2
      (drawCircle c2 (r + ((rng (p + 2) : ℕ) : ℤ) % (maxx - r + 1 - r))
        (r + ((rng (p + 3) : ℕ) : ℤ) % (maxy - r + 1 - r)) r cv) rng (p + 4) hinv
    refine ⟨cvf, pf, ?_⟩
    rw [fillLoop, mbind_eq_some_step _ _ _ _ _ _ hc2]
    try simp only
    rw [mbind_eq_some_step _ _ _ _ _ _ h2]
    try simp only
    rw [mbind_eq_some_step _ _ _ _ _ _ h3]
    try simp only
    rw [mbind_eq_some_step _ _ _ _ _ _ h4]
    try simp only
    exact h5

theorem fillLoop_dims {maxr maxx maxy : ℤ} :
    ∀ (count : ℕ) (color : Color) (cv : Canvas) (rng : ℕ → ℕ) (p : ℕ) (cv1 : Canvas) (p1 : ℕ),
    fillLoop maxr maxx maxy count color cv rng p = some (cv1, p1) →
    cv1.width = cv.width ∧ cv1.height = cv.height := by
  intro count
  induction count with
  | zero =>
    intro color cv rng p cv1 p1 h
    obtain ⟨h1, h2⟩ := Prod.mk.injEq .. ▸ Option.some.injEq .. ▸ h
    rw [← h1]
    exact ⟨rfl, rfl⟩
  | succ k ih =>
    intro color cv rng p cv1 p1 h
    rw [fillLoop] at h
    cases hsb : setRandomBrightness color 255 rng p with
    | none => rw [mbind_eq_none_step _ _ _ _ hsb] at h; exact absurd h (by simp)
    | some vp =>
      obtain ⟨c2, pa⟩ := vp
      rw [mbind_eq_some_step _ _ _ _ _ _ hsb] at h
      try simp only at h
      cases hr1 : rnd 1 maxr rng pa with
      | none => rw [mbind_eq_none_step _ _ _ _ hr1] at h; exact absurd h (by simp)
      | some vp2 =>
        obtain ⟨r, pb⟩ := vp2
        rw [mbind_eq_some_step _ _ _ _ _ _ hr1] at h
        try simp only at h
        cases hr2 : rnd r (maxx - r) rng pb with
        | none => rw [mbind_eq_none_step _ _ _ _ hr2] at h; exact absurd h (by simp)
        | some vp3 =>
          obtain ⟨cx, pc⟩ := vp3
          rw [mbind_eq_some_step _ _ _ _ _ _ hr2] at h
          try simp only at h
          cases hr3 : rnd r (maxy - r) rng pc with
          | none => rw [mbind_eq_none_step _ _ _ _ hr3] at h; exact absurd h (by simp)
          | some vp4 =>
            obtain ⟨cy, pd⟩ := vp4
            rw [mbind_eq_some_step _ _ _ _ _ _ hr3] at h
            try simp only at h
            obtain ⟨hw, hh⟩ := ih c2 _ rng pd cv1 p1 h
            rw [hw, hh, drawCircle_width, drawCircle_height]
            exact ⟨rfl, rfl⟩

theorem SLoc_fillLoop (maxr maxx maxy : ℤ) :
    ∀ (count : ℕ) (color : Color) (cv : Canvas),
    SLoc (fillLoop maxr maxx maxy count color cv) := by
  intro count
  induction count with
  | zero => intro color cv; exact SLoc_mret _
  | succ k ih =>
    intro color cv
    rw [fillLoop]
    exact SLoc_mbind (SLoc_setRandomBrightness _ _) (fun c2 =>
      SLoc_mbind (SLoc_rnd _ _) (fun r =>
      SLoc_mbind (SLoc_rnd _ _) (fun cx =>
      SLoc_mbind (SLoc_rnd _ _) (fun cy => ih c2 _))))

/-- C10: `fillWithCircles` mutates only the pixel buffer: `primaryColor`,
`numWidth`, `numHeight` and `dotSize` are unchanged by a successful call,
because the brightness jitter is applied to a local copy of the primary color;
consequently the later `drawNumber` and `strikeThrough` calls of `NewImage`
(which read `img.primaryColor`) draw with the original unjittered color. -/
theorem fillWithCircles_frame (img : CaptchaImage) (n : ℕ) (maxr : ℤ)
    (rng : ℕ → ℕ) (p : ℕ) (img1 : CaptchaImage) (p1 : ℕ)
    (h : fillWithCircles img n maxr rng p = some (img1, p1)) :
    img1.primaryColor = img.primaryColor ∧ img1.numWidth = img.numWidth ∧
    img1.numHeight = img.numHeight ∧ img1.dotSize = img.dotSize := by
  unfold fillWithCircles at h
  cases hf : fillLoop maxr img.canvas.width img.canvas.height n img.primaryColor
      img.canvas rng p with
  | none => rw [mbind_eq_none_step _ _ _ _ hf] at h; exact absurd h (by simp)
  | some vp =>
    obtain ⟨cv1, pm⟩ := vp
    rw [mbind_eq_some_step _ _ _ _ _ _ hf] at h
    unfold mret at h
    obtain ⟨h1, h2⟩ := Prod.mk.injEq .. ▸ Option.some.injEq .. ▸ h
    rw [← h1]
    exact ⟨rfl, rfl, rfl, rfl⟩

theorem fillWithCircles_frame_witness :
    ∃ img1 p1,
      fillWithCircles ⟨⟨3, 3, fun _ _ => ⟨0, 0, 0, 0⟩⟩, ⟨0, 0, 0, 255⟩, 1, 1, 1⟩ 1 1
        (fun _ => 0) 0 = some (img1, p1) ∧
      (img1.primaryColor = CaptchaImage.primaryColor
          ⟨⟨3, 3, fun _ _ => ⟨0, 0, 0, 0⟩⟩, ⟨0, 0, 0, 255⟩, 1, 1, 1⟩ ∧
       img1.numWidth = 1 ∧ img1.numHeight = 1 ∧ img1.dotSize = 1) := by
  obtain ⟨cv1, p1, h⟩ := @fillLoop_total 1 3 3 (le_refl (1:ℤ)) (by norm_num) (by norm_num) 1
    ⟨0, 0, 0, 255⟩ ⟨3, 3, fun _ _ => ⟨0, 0, 0, 0⟩⟩ (fun _ => 0) 0 (by decide)
  have hsucc : fillWithCircles ⟨⟨3, 3, fun _ _ => ⟨0, 0, 0, 0⟩⟩, ⟨0, 0, 0, 255⟩, 1, 1, 1⟩ 1 1
      (fun _ => 0) 0 = some (⟨cv1, ⟨0, 0, 0, 255⟩, 1, 1, 1⟩, p1) := by
    unfold fillWithCircles
    rw [mbind_eq_some_step _ _ _ _ _ _ h]
    rfl
  exact ⟨_, p1, hsucc,
    fillWithCircles_frame ⟨⟨3, 3, fun _ _ => ⟨0, 0, 0, 0⟩⟩, ⟨0, 0, 0, 255⟩, 1, 1, 1⟩
      1 1 (fun _ => 0) 0 _ p1 hsucc⟩

/-! ## Strike-through line -/

theorem strikeLoop_total {c : Color} {ds maxx maxy : ℤ}
    (hds : 4 ≤ ds) (hmy : 0 ≤ maxy) :
    ∀ (n : ℕ) (x y : ℤ) (cv : Canvas) (rng : ℕ → ℕ) (p : ℕ), (maxx - x).toNat ≤ n →
    ∃ cv1 p1, strikeLoop c ds maxx maxy x y cv rng p = some (cv1, p1) := by
  have ht2 : Int.tdiv ds 2 = ds / 2 := Int.tdiv_eq_ediv (by omega) (by norm_num)
  have ht3 : Int.tdiv maxy 3 = maxy / 3 := Int.tdiv_eq_ediv hmy (by norm_num)
  intro n
  induction n with
  | zero =>
    intro x y cv rng p hm
    rw [strikeLoop, dif_neg (by omega)]
    exact ⟨cv, p, rfl⟩
  | succ k ih =>
    intro x y cv rng p hm
    by_cases hx : x < maxx
    · rw [strikeLoop, dif_pos hx]
      have h1 := rnd_total (show (1:ℤ) ≤ Int.tdiv ds 2 - 1 by omega) rng p
      obtain ⟨hr1, hr2, _, _⟩ := rnd_bounds h1
      rw [h1]
      try simp only
      have h2 := rnd_total (show -(Int.tdiv ds 2) ≤ Int.tdiv ds 2 by omega) rng (p + 1)
      rw [h2]
      try simp only
      set dy : ℤ := -(Int.tdiv ds 2) + ((rng (p + 1) : ℕ) : ℤ)
        % (Int.tdiv ds 2 + 1 - -(Int.tdiv ds 2)) with hdy
      by_cases hcond : y + dy ≤ 0 ∨ maxy ≤ y + dy
      · rw [if_pos hcond]
        have h3 := rnd_total (show Int.tdiv maxy 3 ≤ maxy - Int.tdiv maxy 3 by omega)
          rng (p + 2)
        rw [h3]
        try simp only
        exact ih _ _ _ rng (p + 3) (by omega)
      · rw [if_neg hcond]
        try simp only
        exact ih _ _ _ rng (p + 2) (by omega)
    · rw [strikeLoop, dif_neg hx]
      exact ⟨cv, p, rfl⟩

theorem strikeLoop_sloc {c : Color} {ds maxx maxy : ℤ} :
    ∀ (n : ℕ) (x y : ℤ) (cv : Canvas) (r1 : ℕ → ℕ) (p : ℕ) (cv1 : Canvas) (p1 : ℕ),
    (maxx - x).toNat ≤ n →
    strikeLoop c ds maxx maxy x y cv r1 p = some (cv1, p1) →
    p ≤ p1 ∧ ∀ r2 : ℕ → ℕ, (∀ i, p ≤ i → i < p1 → r2 i = r1 i) →
      strikeLoop c ds maxx maxy x y cv r2 p = some (cv1, p1) := by
  intro n
  induction n with
  | zero =>
    intro x y cv r1 p cv1 p1 hm h
    rw [strikeLoop, dif_neg (by omega)] at h
    refine ⟨?_, fun r2 _ => ?_⟩
    · obtain ⟨h1, h2⟩ := Prod.mk.injEq .. ▸ Option.some.injEq .. ▸ h
      omega
    · rw [strikeLoop, dif_neg (by omega)]
      exact h
  | succ k ih =>
    intro x y cv r1 p cv1 p1 hm h
    by_cases hx : x < maxx
    · rw [strikeLoop, dif_pos hx] at h
      cases heq1 : rnd 1 (Int.tdiv ds 2 - 1) r1 p with
      | none => rw [heq1] at h; exact absurd h (by simp)
      | some vp =>
        obtain ⟨r, pa⟩ := vp
        rw [heq1] at h
        try simp only at h
        obtain ⟨hrl, hru, hpa, _⟩ := rnd_bounds heq1
        cases heq2 : rnd (-(Int.tdiv ds 2)) (Int.tdiv ds 2) r1 pa with
        | none => rw [heq2] at h; exact absurd h (by simp)
        | some vp2 =>
          obtain ⟨dy, pb⟩ := vp2
          rw [heq2] at h
          try simp only at h
          obtain ⟨_, _, hpb, _⟩ := rnd_bounds heq2
          by_cases hcond : y + dy ≤ 0 ∨ maxy ≤ y + dy
          · rw [if_pos hcond] at h
            cases heq3 : rnd (Int.tdiv maxy 3) (maxy - Int.tdiv maxy 3) r1 pb with
            | none => rw [heq3] at h; exact absurd h (by simp)
            | some vp3 =>
              obtain ⟨y2, pc⟩ := vp3
              rw [heq3] at h
              try simp only at h
              obtain ⟨_, _, hpc, _⟩ := rnd_bounds heq3
              obtain ⟨hle, htr⟩ := ih (x + r) y2 _ r1 pc cv1 p1 (by omega) h
              refine ⟨by omega, fun r2 hag => ?_⟩
              rw [strikeLoop, dif_pos hx]
              rw [(rnd_congr (hag p le_rfl (by omega))).trans heq1]
              try simp only
              rw [(rnd_congr (hag pa (by omega) (by omega))).trans heq2]
              try simp only
              rw [if_pos hcond]
              rw [(rnd_congr (hag pb (by omega) (by omega))).trans heq3]
              try simp only
              exact htr r2 (fun i hi1 hi2 => hag i (by omega) hi2)
          · rw [if_neg hcond] at h
            try simp only at h
            obtain ⟨hle, htr⟩ := ih (x + r) (y + dy) _ r1 pb cv1 p1 (by omega) h
            refine ⟨by omega, fun r2 hag => ?_⟩
            rw [strikeLoop, dif_pos hx]
            rw [(rnd_congr (hag p le_rfl (by omega))).trans heq1]
            try simp only
            rw [(rnd_congr (hag pa (by omega) (by omega))).trans heq2]
            try simp only
            rw [if_neg hcond]
            try simp only
            exact htr r2 (fun i hi1 hi2 => hag i (by omega) hi2)
    · rw [strikeLoop, dif_neg hx] at h
      refine ⟨?_, fun r2 _ => ?_⟩
      · obtain ⟨h1, h2⟩ := Prod.mk.injEq .. ▸ Option.some.injEq .. ▸ h
        omega
      · rw [strikeLoop, dif_neg hx]
        exact h

theorem strikeThrough_total (img : CaptchaImage) (rng : ℕ → ℕ) (p : ℕ)
    (hds : 4 ≤ img.dotSize) (hmy : 0 ≤ img.canvas.height) :
    ∃ img1 p1, strikeThrough img rng p = some (img1, p1) := by
  have ht3 : Int.tdiv img.canvas.height 3 = img.canvas.height / 3 :=
    Int.tdiv_eq_ediv hmy (by norm_num)
  have h1 := rnd_total (show Int.tdiv img.canvas.height 3
      ≤ img.canvas.height - Int.tdiv img.canvas.height 3 by omega) rng p
  obtain ⟨cv1, p1, h2⟩ := @strikeLoop_total img.primaryColor img.dotSize
    img.canvas.width img.canvas.height hds hmy (img.canvas.width - 0).toNat 0
    (Int.tdiv img.canvas.height 3 + ((rng p : ℕ) : ℤ)
      % (img.canvas.height - Int.tdiv img.canvas.height 3 + 1
        - Int.tdiv img.canvas.height 3))
    img.canvas rng (p + 1) le_rfl
  refine ⟨{ img with canvas := cv1 }, p1, ?_⟩
  unfold strikeThrough
  rw [mbind_eq_some_step _ _ _ _ _ _ h1]
  try simp only
  rw [h2]

theorem strikeThrough_sloc (img : CaptchaImage) : SLoc (strikeThrough img) := by
  intro r1 p b p1 h
  unfold strikeThrough at h
  cases heq1 : rnd (Int.tdiv img.canvas.height 3)
      (img.canvas.height - Int.tdiv img.canvas.height 3) r1 p with
  | none => rw [mbind_eq_none_step _ _ _ _ heq1] at h; exact absurd h (by simp)
  | some vp =>
    obtain ⟨y, pa⟩ := vp
    rw [mbind_eq_some_step _ _ _ _ _ _ heq1] at h
    try simp only at h
    obtain ⟨_, _, hpa, _⟩ := rnd_bounds heq1
    cases hsl : strikeLoop img.primaryColor img.dotSize img.canvas.width
        img.canvas.height 0 y img.canvas r1 pa with
    | none => rw [hsl] at h; exact absurd h (by simp)
    | some vp2 =>
      obtain ⟨cv1, pc⟩ := vp2
      rw [hsl] at h
      try simp only at h
      obtain ⟨hle, htr⟩ := strikeLoop_sloc (img.canvas.width - 0).toNat 0 y img.canvas
        r1 pa cv1 pc le_rfl hsl
      obtain ⟨hb, hp1⟩ := Prod.mk.injEq .. ▸ Option.some.injEq .. ▸ h
      refine ⟨by omega, fun r2 hag => ?_⟩
      unfold strikeThrough
      rw [mbind_eq_some_step _ _ _ _ _ _ ((rnd_congr (hag p le_rfl (by omega))).trans heq1)]
      try simp only
      rw [htr r2 (fun i hi1 hi2 => hag i (by omega) (by omega))]
      try simp only
      rw [hb, hp1]

/-- C9: under the precondition `dotSize ≥ 4` (so every `rnd` interval it uses
is non-empty; the canvas height must also be nonnegative for the middle-third
draw), `strikeThrough` terminates successfully: each loop pass draws a step
radius `r ≥ 1` and advances `x` by `r`, so `x` strictly increases until it
reaches the canvas width — formally, the loop is well-founded on
`maxx - x` and the whole call returns `some`. -/
theorem strikeThrough_terminates (img : CaptchaImage) (rng : ℕ → ℕ) (p : ℕ)
    (hds : 4 ≤ img.dotSize) (hmy : 0 ≤ img.canvas.height) :
    ∃ img1 p1, strikeThrough img rng p = some (img1, p1) :=
  strikeThrough_total img rng p hds hmy

theorem strikeThrough_terminates_witness :
    (4:ℤ) ≤ CaptchaImage.dotSize ⟨⟨3, 3, fun _ _ => ⟨0, 0, 0, 0⟩⟩, ⟨0, 0, 0, 255⟩, 1, 1, 4⟩ ∧
    (0:ℤ) ≤ Canvas.height (CaptchaImage.canvas
      ⟨⟨3, 3, fun _ _ => ⟨0, 0, 0, 0⟩⟩, ⟨0, 0, 0, 255⟩, 1, 1, 4⟩) ∧
    ∃ img1 p1, strikeThrough ⟨⟨3, 3, fun _ _ => ⟨0, 0, 0, 0⟩⟩, ⟨0, 0, 0, 255⟩, 1, 1, 4⟩
      (fun _ => 0) 0 = some (img1, p1) :=
  ⟨by norm_num, by norm_num,
   strikeThrough_terminates ⟨⟨3, 3, fun _ _ => ⟨0, 0, 0, 0⟩⟩, ⟨0, 0, 0, 255⟩, 1, 1, 4⟩
     (fun _ => 0) 0 (by norm_num) (by norm_num)⟩

/-! ## Digit renderer -/

theorem Intn_total {n : ℤ} (h : 0 < n) (rng : ℕ → ℕ) (p : ℕ) :
    Intn n rng p = some (((rng p : ℕ) : ℤ) % n, p + 1) := by
  unfold Intn
  rw [if_pos h]

theorem rnd_none {lo hi : ℤ} (h : hi + 1 - lo ≤ 0) (rng : ℕ → ℕ) (p : ℕ) :
    rnd lo hi rng p = none := by
  unfold rnd mbind Intn
  rw [if_neg (by omega)]

theorem colLoop_total {c : Color} {glyph : ℕ → Bool} {fw : ℕ} {ds minr maxr : ℤ}
    (h0 : 0 ≤ minr) (h1 : minr ≤ maxr) :
    ∀ (rem : ℕ) (xx yy : ℕ) (x y : ℤ) (cv : Canvas) (rng : ℕ → ℕ) (p : ℕ),
    ∃ cv1 p1, colLoop c glyph fw ds minr maxr x y yy xx rem cv rng p = some (cv1, p1) := by
  intro rem
  induction rem with
  | zero =>
    intro xx yy x y cv rng p
    exact ⟨cv, p, rfl⟩
  | succ k ih =>
    intro xx yy x y cv rng p
    rw [colLoop]
    by_cases hg : glyph (yy * fw + xx)
    · rw [if_pos hg]
      have h2 := rnd_total (show minr ≤ maxr from h1) rng p
      obtain ⟨hrl, hru, _, _⟩ := rnd_bounds h2
      set rr : ℤ := minr + ((rng p : ℕ) : ℤ) % (maxr + 1 - minr) with hrr
      have htd : Int.tdiv rr 2 = rr / 2 := Int.tdiv_eq_ediv (by omega) (by norm_num)
      have h3 := rnd_total (show (0:ℤ) ≤ Int.tdiv rr 2 by omega) rng (p + 1)
      have h4 := rnd_total (show (0:ℤ) ≤ Int.tdiv rr 2 by omega) rng (p + 2)
      rw [mbind_eq_some_step _ _ _ _ _ _ h2]
      try simp only
      rw [mbind_eq_some_step _ _ _ _ _ _ h3]
      try simp only
      rw [mbind_eq_some_step _ _ _ _ _ _ h4]
      try simp only
      exact ih (xx + 1) yy x y _ rng (p + 3)
    · rw [if_neg hg]
      exact ih (xx + 1) yy x y cv rng p

theorem colLoop_dims {c : Color} {glyph : ℕ → Bool} {fw : ℕ} {ds minr maxr : ℤ} :
    ∀ (rem : ℕ) (xx yy : ℕ) (x y : ℤ) (cv : Canvas) (rng : ℕ → ℕ) (p : ℕ)
      (cv1 : Canvas) (p1 : ℕ),
    colLoop c glyph fw ds minr maxr x y yy xx rem cv rng p = some (cv1, p1) →
    cv1.width = cv.width ∧ cv1.height = cv.height := by
  intro rem
  induction rem with
  | zero =>
    intro xx yy x y cv rng p cv1 p1 h
    obtain ⟨h1, h2⟩ := Prod.mk.injEq .. ▸ Option.some.injEq .. ▸ h
    rw [← h1]
    exact ⟨rfl, rfl⟩
  | succ k ih =>
    intro xx yy x y cv rng p cv1 p1 h
    rw [colLoop] at h
    by_cases hg : glyph (yy * fw + xx)
    · rw [if_pos hg] at h
      cases hr1 : rnd minr maxr rng p with
      | none => rw [mbind_eq_none_step _ _ _ _ hr1] at h; exact absurd h (by simp)
      | some vp =>
        obtain ⟨rr, pa⟩ := vp
        rw [mbind_eq_some_step _ _ _ _ _ _ hr1] at h
        try simp only at h
        cases hr2 : rnd 0 (Int.tdiv rr 2) rng pa with
        | none => rw [mbind_eq_none_step _ _ _ _ hr2] at h; exact absurd h (by simp)
        | some vp2 =>
          obtain ⟨jx, pb⟩ := vp2
          rw [mbind_eq_some_step _ _ _ _ _ _ hr2] at h
          try simp only at h
          cases hr3 : rnd 0 (Int.tdiv rr 2) rng pb with
          | none => rw [mbind_eq_none_step _ _ _ _ hr3] at h; exact absurd h (by simp)
          | some vp3 =>
            obtain ⟨jy, pc⟩ := vp3
            rw [mbind_eq_some_step _ _ _ _ _ _ hr3] at h
            try simp only at h
            obtain ⟨hw, hh⟩ := ih (xx + 1) yy x y _ rng pc cv1 p1 h
            rw [hw, hh, drawCircle_width, drawCircle_height]
            exact ⟨rfl, rfl⟩
    · rw [if_neg hg] at h
      exact ih (xx + 1) yy x y cv rng p cv1 p1 h

theorem SLoc_colLoop (c : Color) (glyph : ℕ → Bool) (fw : ℕ) (ds minr maxr : ℤ) :
    ∀ (rem : ℕ) (xx yy : ℕ) (x y : ℤ) (cv : Canvas),
    SLoc (colLoop c glyph fw ds minr maxr x y yy xx rem cv) := by
  intro rem
  induction rem with
  | zero => intro xx yy x y cv; exact SLoc_mret _
  | succ k ih =>
    intro xx yy x y cv
    rw [colLoop]
    split
    · exact SLoc_mbind (SLoc_rnd _ _) (fun rr =>
        SLoc_mbind (SLoc_rnd _ _) (fun jx =>
        SLoc_mbind (SLoc_rnd _ _) (fun jy => ih (xx + 1) yy x y _)))
    · exact ih (xx + 1) yy x y cv

theorem rowLoop_total {c : Color} {glyph : ℕ → Bool} {fw : ℕ} {ds minr maxr : ℤ}
    {skf : ℚ} (h0 : 0 ≤ minr) (h1 : minr ≤ maxr) :
    ∀ (rem : ℕ) (yy : ℕ) (y x : ℤ) (xs : ℚ) (cv : Canvas) (rng : ℕ → ℕ) (p : ℕ),
    ∃ cv1 p1, rowLoop c glyph fw ds minr maxr skf y yy rem x xs cv rng p = some (cv1, p1) := by
  intro rem
  induction rem with
  | zero =>
    intro yy y x xs cv rng p
    exact ⟨cv, p, rfl⟩
  | succ k ih =>
    intro yy y x xs cv rng p
    obtain ⟨cvm, pm, hcol⟩ := colLoop_total h0 h1 fw 0 yy x y cv rng p
    rw [rowLoop]
    rw [mbind_eq_some_step _ _ _ _ _ _ hcol]
    try simp only
    exact ih (yy + 1) y _ _ cvm rng pm

theorem rowLoop_dims {c : Color} {glyph : ℕ → Bool} {fw : ℕ} {ds minr maxr : ℤ}
    {skf : ℚ} :
    ∀ (rem : ℕ) (yy : ℕ) (y x : ℤ) (xs : ℚ) (cv : Canvas) (rng : ℕ → ℕ) (p : ℕ)
      (cv1 : Canvas) (p1 : ℕ),
    rowLoop c glyph fw ds minr maxr skf y yy rem x xs cv rng p = some (cv1, p1) →
    cv1.width = cv.width ∧ cv1.height = cv.height := by
  intro rem
  induction rem with
  | zero =>
    intro yy y x xs cv rng p cv1 p1 h
    obtain ⟨h1, h2⟩ := Prod.mk.injEq .. ▸ Option.some.injEq .. ▸ h
    rw [← h1]
    exact ⟨rfl, rfl⟩
  | succ k ih =>
    intro yy y x xs cv rng p cv1 p1 h
    rw [rowLoop] at h
    cases hcol : colLoop c glyph fw ds minr maxr x y yy 0 fw cv rng p with
    | none => rw [mbind_eq_none_step _ _ _ _ hcol] at h; exact absurd h (by simp)
    | some vp =>
      obtain ⟨cvm, pm⟩ := vp
      rw [mbind_eq_some_step _ _ _ _ _ _ hcol] at h
      try simp only at h
      obtain ⟨hw1, hh1⟩ := colLoop_dims fw 0 yy x y cv rng p cvm pm hcol
      obtain ⟨hw2, hh2⟩ := ih (yy + 1) y _ _ cvm rng pm cv1 p1 h
      exact ⟨hw2.trans hw1, hh2.trans hh1⟩

theorem SLoc_rowLoop (c : Color) (glyph : ℕ → Bool) (fw : ℕ) (ds minr maxr : ℤ)
    (skf : ℚ) :
    ∀ (rem : ℕ) (yy : ℕ) (y x : ℤ) (xs : ℚ) (cv : Canvas),
    SLoc (rowLoop c glyph fw ds minr maxr skf y yy rem x xs cv) := by
  intro rem
  induction rem with
  | zero => intro yy y x xs cv; exact SLoc_mret _
  | succ k ih =>
    intro yy y x xs cv
    rw [rowLoop]
    exact SLoc_mbind (SLoc_colLoop _ _ _ _ _ _ _ _ _ _ _ _) (fun cvm => ih (yy + 1) y _ _ cvm)

theorem randFloat64_total (rng : ℕ → ℕ) (p : ℕ) :
    randFloat64 rng p = some (((rng p % 2 ^ 53 : ℕ) : ℚ) / 2 ^ 53, p + 1) := rfl

theorem drawNumber_total (fw fh : ℕ) (img : CaptchaImage) (glyph : ℕ → Bool)
    (x y : ℤ) (rng : ℕ → ℕ) (p : ℕ) (hds : 0 ≤ img.dotSize) :
    ∃ img1 p1, drawNumber fw fh img glyph x y rng p = some (img1, p1) := by
  have htd2 : Int.tdiv img.dotSize 2 = img.dotSize / 2 := Int.tdiv_eq_ediv hds (by norm_num)
  have htd4 : Int.tdiv img.dotSize 4 = img.dotSize / 4 := Int.tdiv_eq_ediv hds (by norm_num)
  have h1 := randFloat64_total rng p
  have h2 := rnd_total (show -maxSkew ≤ maxSkew by norm_num [maxSkew]) rng (p + 1)
  have h3 := rnd_total (show -(Int.tdiv img.dotSize 2) ≤ Int.tdiv img.dotSize 2 by omega)
    rng (p + 2)
  obtain ⟨cvm, pm, hrow⟩ := rowLoop_total (show (0:ℤ) ≤ Int.tdiv img.dotSize 2 by omega)
    (show Int.tdiv img.dotSize 2 ≤ Int.tdiv img.dotSize 2 + Int.tdiv img.dotSize 4 by omega)
    fh 0 _ x ((x : ℤ) : ℚ) img.canvas rng (p + 3)
  refine ⟨{ img with canvas := cvm }, pm, ?_⟩
  unfold drawNumber
  rw [mbind_eq_some_step _ _ _ _ _ _ h1]
  try simp only
  rw [mbind_eq_some_step _ _ _ _ _ _ h2]
  try simp only
  rw [mbind_eq_some_step _ _ _ _ _ _ h3]
  try simp only
  rw [mbind_eq_some_step _ _ _ _ _ _ hrow]
  rfl

theorem drawNumber_frame (fw fh : ℕ) (img : CaptchaImage) (glyph : ℕ → Bool)
    (x y : ℤ) (rng : ℕ → ℕ) (p : ℕ) (img1 : CaptchaImage) (p1 : ℕ)
    (h : drawNumber fw fh img glyph x y rng p = some (img1, p1)) :
    img1.primaryColor = img.primaryColor ∧ img1.numWidth = img.numWidth ∧
    img1.numHeight = img.numHeight ∧ img1.dotSize = img.dotSize ∧
    img1.canvas.width = img.canvas.width ∧ img1.canvas.height = img.canvas.height := by
  unfold drawNumber at h
  rw [mbind_eq_some_step _ _ _ _ _ _ (randFloat64_total rng p)] at h
  try simp only at h
  cases h2 : rnd (-maxSkew) maxSkew rng (p + 1) with
  | none => rw [mbind_eq_none_step _ _ _ _ h2] at h; exact absurd h (by simp)
  | some vp =>
    obtain ⟨sk, pa⟩ := vp
    rw [mbind_eq_some_step _ _ _ _ _ _ h2] at h
    try simp only at h
    cases h3 : rnd (-(Int.tdiv img.dotSize 2)) (Int.tdiv img.dotSize 2) rng pa with
    | none => rw [mbind_eq_none_step _ _ _ _ h3] at h; exact absurd h (by simp)
    | some vp2 =>
      obtain ⟨jy, pb⟩ := vp2
      rw [mbind_eq_some_step _ _ _ _ _ _ h3] at h
      try simp only at h
      cases h4 : rowLoop img.primaryColor glyph fw img.dotSize (Int.tdiv img.dotSize 2)
          (Int.tdiv img.dotSize 2 + Int.tdiv img.dotSize 4)
          ((((rng p % 2 ^ 53 : ℕ) : ℚ) / 2 ^ 53) * ((sk : ℤ) : ℚ)) (y + jy) 0 fh x
          ((x : ℤ) : ℚ) img.canvas rng pb with
      | none => rw [mbind_eq_none_step _ _ _ _ h4] at h; exact absurd h (by simp)
      | some vp3 =>
        obtain ⟨cvm, pm⟩ := vp3
        rw [mbind_eq_some_step _ _ _ _ _ _ h4] at h
        unfold mret at h
        obtain ⟨hA, hB⟩ := Prod.mk.injEq .. ▸ Option.some.injEq .. ▸ h
        obtain ⟨hw, hh⟩ := rowLoop_dims fh 0 (y + jy) x _ img.canvas rng pb cvm pm h4
        rw [← hA]
        exact ⟨rfl, rfl, rfl, rfl, hw, hh⟩

theorem SLoc_drawNumber (fw fh : ℕ) (img : CaptchaImage) (glyph : ℕ → Bool)
    (x y : ℤ) : SLoc (drawNumber fw fh img glyph x y) := by
  unfold drawNumber
  exact SLoc_mbind SLoc_randFloat64 (fun u =>
    SLoc_mbind (SLoc_rnd _ _) (fun sk =>
    SLoc_mbind (SLoc_rnd _ _) (fun jy =>
    SLoc_mbind (SLoc_rowLoop _ _ _ _ _ _ _ _ _ _ _ _ _) (fun cv => SLoc_mret _))))

theorem drawNumbers_total (fw fh : ℕ) (font : ℕ → ℕ → Bool) :
    ∀ (gs : List ℕ) (img : CaptchaImage) (x y : ℤ) (rng : ℕ → ℕ) (p : ℕ),
    0 ≤ img.dotSize →
    ∃ img1 p1, drawNumbers fw fh font img gs x y rng p = some (img1, p1) := by
  intro gs
  induction gs with
  | nil =>
    intro img x y rng p _
    exact ⟨img, p, rfl⟩
  | cons g rest ih =>
    intro img x y rng p hds
    obtain ⟨imgA, pa, hdn⟩ := drawNumber_total fw fh img (font g) x y rng p hds
    obtain ⟨_, _, _, hds2, _, _⟩ := drawNumber_frame fw fh img (font g) x y rng p imgA pa hdn
    obtain ⟨img1, p1, hrest⟩ := ih imgA (x + imgA.numWidth + imgA.dotSize) y rng pa
      (by omega)
    refine ⟨img1, p1, ?_⟩
    rw [drawNumbers]
    rw [mbind_eq_some_step _ _ _ _ _ _ hdn]
    try simp only
    exact hrest

theorem drawNumbers_frame (fw fh : ℕ) (font : ℕ → ℕ → Bool) :
    ∀ (gs : List ℕ) (img : CaptchaImage) (x y : ℤ) (rng : ℕ → ℕ) (p : ℕ)
      (img1 : CaptchaImage) (p1 : ℕ),
    drawNumbers fw fh font img gs x y rng p = some (img1, p1) →
    img1.primaryColor = img.primaryColor ∧ img1.numWidth = img.numWidth ∧
    img1.numHeight = img.numHeight ∧ img1.dotSize = img.dotSize ∧
    img1.canvas.width = img.canvas.width ∧ img1.canvas.height = img.canvas.height := by
  intro gs
  induction gs with
  | nil =>
    intro img x y rng p img1 p1 h
    obtain ⟨h1, h2⟩ := Prod.mk.injEq .. ▸ Option.some.injEq .. ▸ h
    rw [← h1]
    exact ⟨rfl, rfl, rfl, rfl, rfl, rfl⟩
  | cons g rest ih =>
    intro img x y rng p img1 p1 h
    rw [drawNumbers] at h
    cases hdn : drawNumber fw fh img (font g) x y rng p with
    | none => rw [mbind_eq_none_step _ _ _ _ hdn] at h; exact absurd h (by simp)
    | some vp =>
      obtain ⟨imgA, pa⟩ := vp
      rw [mbind_eq_some_step _ _ _ _ _ _ hdn] at h
      try simp only at h
      obtain ⟨hc1, hn1, hh1, hd1, hw1, hg1⟩ :=
        drawNumber_frame fw fh img (font g) x y rng p imgA pa hdn
      obtain ⟨hc2, hn2, hh2, hd2, hw2, hg2⟩ := ih imgA _ y rng pa img1 p1 h
      exact ⟨hc2.trans hc1, hn2.trans hn1, hh2.trans hh1, hd2.trans hd1,
        hw2.trans hw1, hg2.trans hg1⟩

theorem SLoc_drawNumbers (fw fh : ℕ) (font : ℕ → ℕ → Bool) :
    ∀ (gs : List ℕ) (img : CaptchaImage) (x y : ℤ),
    SLoc (drawNumbers fw fh font img gs x y) := by
  intro gs
  induction gs with
  | nil => intro img x y; exact SLoc_mret _
  | cons g rest ih =>
    intro img x y
    rw [drawNumbers]
    exact SLoc_mbind (SLoc_drawNumber _ _ _ _ _ _) (fun imgA => ih imgA _ y)

/-- Splitting the digit loop: after drawing `gs1`, the cursor sits exactly
`gs1.length * (numWidth + dotSize)` to the right of where it started. -/
theorem drawNumbers_append (fw fh : ℕ) (font : ℕ → ℕ → Bool) :
    ∀ (gs1 : List ℕ) (gs2 : List ℕ) (img : CaptchaImage) (x y : ℤ)
      (rng : ℕ → ℕ) (p : ℕ) (img2 : CaptchaImage) (p2 : ℕ),
    drawNumbers fw fh font img (gs1 ++ gs2) x y rng p = some (img2, p2) →
    ∃ imgMid pMid, drawNumbers fw fh font img gs1 x y rng p = some (imgMid, pMid) ∧
      imgMid.numWidth = img.numWidth ∧ imgMid.dotSize = img.dotSize ∧
      drawNumbers fw fh font imgMid gs2
        (x + (gs1.length : ℤ) * (img.numWidth + img.dotSize)) y rng pMid
        = some (img2, p2) := by
  intro gs1
  induction gs1 with
  | nil =>
    intro gs2 img x y rng p img2 p2 h
    exact ⟨img, p, rfl, rfl, rfl, by simpa using h⟩
  | cons g rest ih =>
    intro gs2 img x y rng p img2 p2 h
    rw [List.cons_append, drawNumbers] at h
    cases hdn : drawNumber fw fh img (font g) x y rng p with
    | none => rw [mbind_eq_none_step _ _ _ _ hdn] at h; exact absurd h (by simp)
    | some vp =>
      obtain ⟨imgA, pa⟩ := vp
      rw [mbind_eq_some_step _ _ _ _ _ _ hdn] at h
      try simp only at h
      obtain ⟨_, hn1, _, hd1, _, _⟩ :=
        drawNumber_frame fw fh img (font g) x y rng p imgA pa hdn
      obtain ⟨imgMid, pMid, h1, hfn, hfd, h2⟩ :=
        ih gs2 imgA (x + imgA.numWidth + imgA.dotSize) y rng pa img2 p2 h
      refine ⟨imgMid, pMid, ?_, hfn.trans hn1, hfd.trans hd1, ?_⟩
      · rw [drawNumbers, mbind_eq_some_step _ _ _ _ _ _ hdn]
        try simp only
        exact h1
      · rw [show x + ((g :: rest).length : ℤ) * (img.numWidth + img.dotSize)
            = x + imgA.numWidth + imgA.dotSize
              + (rest.length : ℤ) * (imgA.numWidth + imgA.dotSize) by
          rw [hn1, hd1]
          simp only [List.length_cons]
          push_cast
          ring]
        exact h2

theorem SLoc_captchaAnchor (width height nw nh ds : ℤ) (n : ℕ) :
    SLoc (captchaAnchor width height nw nh ds n) := by
  unfold captchaAnchor
  exact SLoc_mbind (SLoc_rnd _ _) (fun x => SLoc_mbind (SLoc_rnd _ _) (fun y => SLoc_mret _))

theorem captchaAnchor_total (width height nw nh ds : ℤ) (n : ℕ) (rng : ℕ → ℕ) (p : ℕ)
    (h1 : ds * 2 ≤ width - (nw + ds) * (n : ℤ) - ds)
    (h2 : ds * 2 ≤ height - nh - ds * 2) :
    ∃ x y, captchaAnchor width height nw nh ds n rng p = some ((x, y), p + 1 + 1) := by
  have ha := rnd_total h1 rng p
  have hb := rnd_total h2 rng (p + 1)
  refine ⟨ds * 2 + ((rng p : ℕ) : ℤ) % (width - (nw + ds) * (n : ℤ) - ds + 1 - ds * 2),
    ds * 2 + ((rng (p + 1) : ℕ) : ℤ) % (height - nh - ds * 2 + 1 - ds * 2), ?_⟩
  unfold captchaAnchor
  rw [mbind_eq_some_step _ _ _ _ _ _ ha]
  try simp only
  rw [mbind_eq_some_step _ _ _ _ _ _ hb]
  rfl

/-- C8: the randomly chosen anchor `(x, y)` of `NewImage` always leaves at
least a `2·dotSize` margin between the nominal digit row (width
`n·numWidth + (n-1)·dotSize`, height `numHeight`) and every canvas edge, and
the digit loop advances the x cursor by exactly `numWidth + dotSize` between
consecutive digits (drawing `gs1` then `gs2` places `gs2` at
`x + gs1.length·(numWidth + dotSize)`). -/
theorem anchor_margins_and_cursor_advance (width height nw nh ds : ℤ) (n : ℕ)
    (rng : ℕ → ℕ) (p : ℕ) (x y : ℤ) (p' : ℕ)
    (h : captchaAnchor width height nw nh ds n rng p = some ((x, y), p')) :
    (ds * 2 ≤ x ∧ x + (n : ℤ) * nw + ((n : ℤ) - 1) * ds + 2 * ds ≤ width ∧
     ds * 2 ≤ y ∧ y + nh + 2 * ds ≤ height) ∧
    (∀ (fw fh : ℕ) (font : ℕ → ℕ → Bool) (img : CaptchaImage) (gs1 gs2 : List ℕ)
       (y0 : ℤ) (rng2 : ℕ → ℕ) (p2 : ℕ) (img2 : CaptchaImage) (p2' : ℕ),
      img.numWidth = nw → img.dotSize = ds →
      drawNumbers fw fh font img (gs1 ++ gs2) x y0 rng2 p2 = some (img2, p2') →
      ∃ imgMid pMid, drawNumbers fw fh font img gs1 x y0 rng2 p2 = some (imgMid, pMid) ∧
        drawNumbers fw fh font imgMid gs2 (x + (gs1.length : ℤ) * (nw + ds)) y0 rng2 pMid
          = some (img2, p2')) := by
  constructor
  · unfold captchaAnchor at h
    cases ha : rnd (ds * 2) (width - (nw + ds) * (n : ℤ) - ds) rng p with
    | none => rw [mbind_eq_none_step _ _ _ _ ha] at h; exact absurd h (by simp)
    | some vp =>
      obtain ⟨xv, pa⟩ := vp
      rw [mbind_eq_some_step _ _ _ _ _ _ ha] at h
      try simp only at h
      cases hb : rnd (ds * 2) (height - nh - ds * 2) rng pa with
      | none => rw [mbind_eq_none_step _ _ _ _ hb] at h; exact absurd h (by simp)
      | some vp2 =>
        obtain ⟨yv, pb⟩ := vp2
        rw [mbind_eq_some_step _ _ _ _ _ _ hb] at h
        unfold mret at h
        obtain ⟨hxy, hp⟩ := Prod.mk.injEq .. ▸ Option.some.injEq .. ▸ h
        obtain ⟨hxe, hye⟩ := Prod.mk.injEq .. ▸ hxy
        obtain ⟨hal, hau, _, _⟩ := rnd_bounds ha
        obtain ⟨hbl, hbu, _, _⟩ := rnd_bounds hb
        subst hxe
        subst hye
        have hring : (nw + ds) * (n : ℤ) = (n : ℤ) * nw + (n : ℤ) * ds := by ring
        have hring2 : ((n : ℤ) - 1) * ds = (n : ℤ) * ds - ds := by ring
        refine ⟨by omega, by linarith, by omega, by linarith⟩
  · intro fw fh font img gs1 gs2 y0 rng2 p2 img2 p2' hinw hids h3
    obtain ⟨imgMid, pMid, hA, _, _, hB⟩ :=
      drawNumbers_append fw fh font gs1 gs2 img x y0 rng2 p2 img2 p2' h3
    rw [hinw, hids] at hB
    exact ⟨imgMid, pMid, hA, hB⟩

theorem anchor_margins_and_cursor_advance_witness :
    ((6 * 2 ≤ (12:ℤ) ∧ (12:ℤ) + 5 * 36 + (5 - 1) * 6 + 2 * 6 ≤ 300 ∧
      6 * 2 ≤ (12:ℤ) ∧ (12:ℤ) + 42 + 2 * 6 ≤ 80) ∧
     (∀ (fw fh : ℕ) (font : ℕ → ℕ → Bool) (img : CaptchaImage) (gs1 gs2 : List ℕ)
        (y0 : ℤ) (rng2 : ℕ → ℕ) (p2 : ℕ) (img2 : CaptchaImage) (p2' : ℕ),
       img.numWidth = 36 → img.dotSize = 6 →
       drawNumbers fw fh font img (gs1 ++ gs2) 12 y0 rng2 p2 = some (img2, p2') →
       ∃ imgMid pMid, drawNumbers fw fh font img gs1 12 y0 rng2 p2 = some (imgMid, pMid) ∧
         drawNumbers fw fh font imgMid gs2 (12 + (gs1.length : ℤ) * (36 + 6)) y0 rng2 pMid
           = some (img2, p2'))) :=
  anchor_margins_and_cursor_advance 300 80 36 42 6 5 (fun _ => 0) 0 12 12 2 (by decide)

/-! ## Image assembler: `NewImage` -/

theorem fillWithCircles_total (img : CaptchaImage) (n : ℕ) (maxr : ℤ)
    (rng : ℕ → ℕ) (p : ℕ) (h1 : 1 ≤ maxr) (h2 : 2 * maxr ≤ img.canvas.width)
    (h3 : 2 * maxr ≤ img.canvas.height)
    (hc : max3 img.primaryColor.r img.primaryColor.g img.primaryColor.b < 255) :
    ∃ cv1 p1, fillWithCircles img n maxr rng p = some ({ img with canvas := cv1 }, p1) ∧
      cv1.width = img.canvas.width ∧ cv1.height = img.canvas.height := by
  obtain ⟨cv1, p1, hfill⟩ := fillLoop_total h1 h2 h3 n img.primaryColor img.canvas rng p hc
  obtain ⟨hfw, hfh⟩ := fillLoop_dims n img.primaryColor img.canvas rng p cv1 p1 hfill
  refine ⟨cv1, p1, ?_, hfw, hfh⟩
  unfold fillWithCircles
  rw [mbind_eq_some_step _ _ _ _ _ _ hfill]
  rfl

theorem SLoc_fillWithCircles (img : CaptchaImage) (n : ℕ) (maxr : ℤ) :
    SLoc (fillWithCircles img n maxr) := by
  unfold fillWithCircles
  exact SLoc_mbind (SLoc_fillLoop _ _ _ _ _ _) (fun cv => SLoc_mret _)

/-- The whole pipeline succeeds whenever the computed layout gives
`dotSize ≥ 4` and the two anchor intervals are non-empty. -/
theorem newImage_total (fw fh : ℕ) (font : ℕ → ℕ → Bool) (numbers : List ℕ)
    (width height : ℤ) (rng : ℕ → ℕ) (p : ℕ)
    (hne : numbers ≠ []) (hw : 0 < width) (hh : 0 < height)
    (hds : 4 ≤ (calculateSizes fw fh width height (numbers.length : ℤ)).dotSize)
    (hax : (calculateSizes fw fh width height (numbers.length : ℤ)).dotSize * 2
      ≤ width - ((calculateSizes fw fh width height (numbers.length : ℤ)).numWidth
          + (calculateSizes fw fh width height (numbers.length : ℤ)).dotSize)
          * (numbers.length : ℤ)
        - (calculateSizes fw fh width height (numbers.length : ℤ)).dotSize)
    (hay : (calculateSizes fw fh width height (numbers.length : ℤ)).dotSize * 2
      ≤ height - (calculateSizes fw fh width height (numbers.length : ℤ)).numHeight
        - (calculateSizes fw fh width height (numbers.length : ℤ)).dotSize * 2) :
    ∃ img p1, NewImage fw fh font numbers width height rng p = some (img, p1) := by
  have hlen : (1 : ℤ) ≤ (numbers.length : ℤ) := by
    have := List.length_pos.mpr hne
    exact_mod_cast this
  obtain ⟨hnw0, hnh0, hds0⟩ :=
    calculateSizes_nonneg fw fh width height (numbers.length : ℤ) hw hh hlen
  have hmul : ((calculateSizes fw fh width height (numbers.length : ℤ)).numWidth
        + (calculateSizes fw fh width height (numbers.length : ℤ)).dotSize) * 1
      ≤ ((calculateSizes fw fh width height (numbers.length : ℤ)).numWidth
        + (calculateSizes fw fh width height (numbers.length : ℤ)).dotSize)
        * (numbers.length : ℤ) :=
    mul_le_mul_of_nonneg_left hlen (by omega)
  have hwge : 2 * (calculateSizes fw fh width height (numbers.length : ℤ)).dotSize
      ≤ width := by linarith
  have hhge : 2 * (calculateSizes fw fh width height (numbers.length : ℤ)).dotSize
      ≤ height := by linarith
  have hch : ∀ q : ℕ, ((((rng q : ℕ) : ℤ)) % 129).toNat ≤ 128 := by
    intro q
    have h0 := Int.emod_nonneg ((rng q : ℕ) : ℤ) (by norm_num : (129:ℤ) ≠ 0)
    have h1 := Int.emod_lt_of_pos ((rng q : ℕ) : ℤ) (by norm_num : (0:ℤ) < 129)
    omega
  obtain ⟨cv1, pf, hfill, hfw, hfh2⟩ := fillWithCircles_total
    ⟨⟨width, height, fun _ _ => ⟨0, 0, 0, 0⟩⟩,
     ⟨((((rng p : ℕ) : ℤ)) % 129).toNat, ((((rng (p + 1) : ℕ) : ℤ)) % 129).toNat,
      ((((rng (p + 1 + 1) : ℕ) : ℤ)) % 129).toNat, 255⟩,
     (calculateSizes fw fh width height (numbers.length : ℤ)).numWidth,
     (calculateSizes fw fh width height (numbers.length : ℤ)).numHeight,
     (calculateSizes fw fh width height (numbers.length : ℤ)).dotSize⟩
    10 (calculateSizes fw fh width height (numbers.length : ℤ)).dotSize
    rng (p + 1 + 1 + 1) (by omega) (by exact hwge) (by exact hhge)
    (max3_lt
      (show ((((rng p : ℕ) : ℤ)) % 129).toNat < 255 by have := hch p; omega)
      (show ((((rng (p + 1) : ℕ) : ℤ)) % 129).toNat < 255 by have := hch (p + 1); omega)
      (show ((((rng (p + 1 + 1) : ℕ) : ℤ)) % 129).toNat < 255 by
        have := hch (p + 1 + 1); omega))
  obtain ⟨ax, ay, hanchor⟩ := captchaAnchor_total width height
    (calculateSizes fw fh width height (numbers.length : ℤ)).numWidth
    (calculateSizes fw fh width height (numbers.length : ℤ)).numHeight
    (calculateSizes fw fh width height (numbers.length : ℤ)).dotSize
    numbers.length rng pf (by exact hax) (by exact hay)
  obtain ⟨img2, pd, hdraw⟩ := drawNumbers_total fw fh font numbers
    ⟨cv1,
     ⟨((((rng p : ℕ) : ℤ)) % 129).toNat, ((((rng (p + 1) : ℕ) : ℤ)) % 129).toNat,
      ((((rng (p + 1 + 1) : ℕ) : ℤ)) % 129).toNat, 255⟩,
     (calculateSizes fw fh width height (numbers.length : ℤ)).numWidth,
     (calculateSizes fw fh width height (numbers.length : ℤ)).numHeight,
     (calculateSizes fw fh width height (numbers.length : ℤ)).dotSize⟩
    ax ay rng (pf + 1 + 1) (by exact hds0)
  obtain ⟨_, _, _, hfds, _, hfheight⟩ := drawNumbers_frame fw fh font numbers _ ax ay
    rng (pf + 1 + 1) img2 pd hdraw
  obtain ⟨img3, p3, hst⟩ := strikeThrough_total img2 rng pd
    (by rw [hfds]; exact hds)
    (by
      rw [hfheight]
      show (0:ℤ) ≤ cv1.height
      rw [hfh2]
      show (0:ℤ) ≤ height
      omega)
  refine ⟨img3, p3, ?_⟩
  unfold NewImage
  rw [mbind_eq_some_step _ _ _ _ _ _ (Intn_total (by norm_num) rng p)]
  try simp only
  rw [mbind_eq_some_step _ _ _ _ _ _ (Intn_total (by norm_num) rng (p + 1))]
  try simp only
  rw [mbind_eq_some_step _ _ _ _ _ _ (Intn_total (by norm_num) rng (p + 1 + 1))]
  try simp only
  rw [mbind_eq_some_step _ _ _ _ _ _ hfill]
  try simp only
  rw [mbind_eq_some_step _ _ _ _ _ _ hanchor]
  try simp only
  rw [mbind_eq_some_step _ _ _ _ _ _ hdraw]
  try simp only
  exact hst

theorem SLoc_NewImage (fw fh : ℕ) (font : ℕ → ℕ → Bool) (numbers : List ℕ)
    (width height : ℤ) : SLoc (NewImage fw fh font numbers width height) := by
  unfold NewImage
  exact SLoc_mbind (SLoc_Intn _) (fun cr =>
    SLoc_mbind (SLoc_Intn _) (fun cg =>
    SLoc_mbind (SLoc_Intn _) (fun cb =>
    SLoc_mbind (SLoc_fillWithCircles _ _ _) (fun img1 =>
    SLoc_mbind (SLoc_captchaAnchor _ _ _ _ _ _) (fun xy =>
    SLoc_mbind (SLoc_drawNumbers _ _ _ _ _ _ _) (fun img2 =>
    strikeThrough_sloc img2))))))

theorem fillLoop_none_of_nonpos {maxradius maxx maxy : ℤ} (hmr : maxradius ≤ 0)
    (k : ℕ) (color : Color) (cv : Canvas) (rng : ℕ → ℕ) (p : ℕ)
    (hc : max3 color.r color.g color.b < 255) :
    fillLoop maxradius maxx maxy (k + 1) color cv rng p = none := by
  obtain ⟨c2, hc2, _⟩ := setRandomBrightness_total le_rfl hc rng p
  rw [fillLoop, mbind_eq_some_step _ _ _ _ _ _ hc2]
  try simp only
  exact mbind_eq_none_step _ _ _ _ (rnd_none (by omega) rng (p + 1))

theorem fillWithCircles_none_of_nonpos (img : CaptchaImage) (k : ℕ) (maxr : ℤ)
    (rng : ℕ → ℕ) (p : ℕ) (hmr : maxr ≤ 0)
    (hc : max3 img.primaryColor.r img.primaryColor.g img.primaryColor.b < 255) :
    fillWithCircles img (k + 1) maxr rng p = none := by
  unfold fillWithCircles
  exact mbind_eq_none_step _ _ _ _
    (fillLoop_none_of_nonpos hmr k img.primaryColor img.canvas rng p hc)

/-- C2 counterexample: the valid input `width = height = 1` with one digit
computes `dotSize = 0`, so the very first background circle's
`rnd(1, maxradius)` call receives the empty interval `[1, 0]` and panics
(`rand.Intn(0)`); the pipeline does fail from a random draw. -/
theorem NewImage_panics_on_1x1 :
    NewImage 5 8 (fun _ _ => false) [0] 1 1 (fun _ => 0) 0 = none := by
  have hds : (calculateSizes 5 8 1 1 (([0] : List ℕ).length : ℤ)).dotSize = 0 := by
    norm_num [calculateSizes, gtrunc, Int.tdiv]
  unfold NewImage
  rw [mbind_eq_some_step _ _ _ _ _ _ (Intn_total (by norm_num) (fun _ => 0) 0)]
  try simp only
  rw [mbind_eq_some_step _ _ _ _ _ _ (Intn_total (by norm_num) (fun _ => 0) (0 + 1))]
  try simp only
  rw [mbind_eq_some_step _ _ _ _ _ _ (Intn_total (by norm_num) (fun _ => 0) (0 + 1 + 1))]
  try simp only
  apply mbind_eq_none_step
  exact fillWithCircles_none_of_nonpos _ 9 _ _ _ (by rw [hds]) (by decide)

/-- C2 amended: for valid inputs whose computed layout satisfies `dotSize ≥ 4`
and whose dimensions leave room for the anchor (both anchor intervals
non-empty), every interval passed to `rnd` in the whole pipeline is non-empty
and `NewImage` succeeds with no panic.  Without these conditions the pipeline
can panic (see the 1×1 counterexample). -/
theorem rendering_never_panics_under_layout_conditions (fw fh : ℕ)
    (font : ℕ → ℕ → Bool) (numbers : List ℕ) (width height : ℤ)
    (rng : ℕ → ℕ) (p : ℕ)
    (hdigits : ∀ d ∈ numbers, d ≤ 9)
    (hne : numbers ≠ []) (hw : 0 < width) (hh : 0 < height)
    (hds : 4 ≤ (calculateSizes fw fh width height (numbers.length : ℤ)).dotSize)
    (hax : (calculateSizes fw fh width height (numbers.length : ℤ)).dotSize * 2
      ≤ width - ((calculateSizes fw fh width height (numbers.length : ℤ)).numWidth
          + (calculateSizes fw fh width height (numbers.length : ℤ)).dotSize)
          * (numbers.length : ℤ)
        - (calculateSizes fw fh width height (numbers.length : ℤ)).dotSize)
    (hay : (calculateSizes fw fh width height (numbers.length : ℤ)).dotSize * 2
      ≤ height - (calculateSizes fw fh width height (numbers.length : ℤ)).numHeight
        - (calculateSizes fw fh width height (numbers.length : ℤ)).dotSize * 2) :
    ∃ img p1, NewImage fw fh font numbers width height rng p = some (img, p1) :=
  newImage_total fw fh font numbers width height rng p hne hw hh hds hax hay

theorem rendering_never_panics_under_layout_conditions_witness :
    ∃ img p1, NewImage 5 8 (fun _ _ => false) [3] 300 80 (fun _ => 0) 0
      = some (img, p1) :=
  rendering_never_panics_under_layout_conditions 5 8 (fun _ _ => false) [3] 300 80
    (fun _ => 0) 0 (by decide) (by decide) (by norm_num) (by norm_num)
    (by norm_num [calculateSizes, gtrunc, Int.tdiv])
    (by norm_num [calculateSizes, gtrunc, Int.tdiv])
    (by norm_num [calculateSizes, gtrunc, Int.tdiv])

/-- C6: rendering is deterministic given the random stream: if two runs of
`NewImage` read identical values at every stream position the first run
consumes, they produce the same `CaptchaImage` — pixel-for-pixel identical
canvases — and consume the same number of draws. -/
theorem NewImage_deterministic (fw fh : ℕ) (font : ℕ → ℕ → Bool) (numbers : List ℕ)
    (width height : ℤ) (r1 r2 : ℕ → ℕ) (img : CaptchaImage) (p1 : ℕ)
    (h : NewImage fw fh font numbers width height r1 0 = some (img, p1))
    (hag : ∀ i, i < p1 → r2 i = r1 i) :
    NewImage fw fh font numbers width height r2 0 = some (img, p1) :=
  (SLoc_NewImage fw fh font numbers width height r1 0 img p1 h).2 r2
    (fun i _ h2 => hag i h2)

theorem NewImage_deterministic_witness :
    ∃ img p1, NewImage 5 8 (fun _ _ => false) [3] 300 80 (fun _ => 0) 0
        = some (img, p1) ∧
      NewImage 5 8 (fun _ _ => false) [3] 300 80 (fun i => 0 * i) 0
        = some (img, p1) := by
  obtain ⟨img, p1, h⟩ := newImage_total 5 8 (fun _ _ => false) [3] 300 80 (fun _ => 0) 0
    (by decide) (by norm_num) (by norm_num)
    (by norm_num [calculateSizes, gtrunc, Int.tdiv])
    (by norm_num [calculateSizes, gtrunc, Int.tdiv])
    (by norm_num [calculateSizes, gtrunc, Int.tdiv])
  exact ⟨img, p1, h,
    NewImage_deterministic 5 8 (fun _ _ => false) [3] 300 80 (fun _ => 0)
      (fun i => 0 * i) img p1 h (fun i _ => by simp)⟩
